import Mathlib

/-!
# Verification of the InterviewBasics ring buffer (src/RingBuffer/RingBuffer.cpp)

Shallow embedding of the C ring buffer.  The C state is

    struct _RING_BUFFER { BYTE* Buffer; size_t Capacity; size_t ReadIndex; size_t WriteIndex; };

`size_t` cursors are modelled as `Nat`: the cursors are monotonically
non-decreasing and are only ever compared, subtracted, and reduced
`mod Capacity`; under the reachable-state invariant
`ReadIndex ≤ WriteIndex ≤ ReadIndex + Capacity` every `size_t`
subtraction the code performs stays within bounds, so unsigned wraparound
never fires and `Nat` arithmetic coincides with the machine arithmetic.
The backing store is a `List Nat` of length `Capacity`; bytes are `Nat`
(their numeric range is irrelevant to every claim).  `memcpy` is modelled
byte by byte with `List.set` (the C calls never overlap source and
destination).  Fallible allocation is an explicit `Bool` input to
`InitializeRingBuffer`.
-/

structure RB where
  ReadIndex : Nat
  WriteIndex : Nat
  Buffer : List Nat
  Capacity : Nat
deriving Repr, DecidableEq

theorem RB.ext2 (a b : RB) (h1 : a.ReadIndex = b.ReadIndex)
    (h2 : a.WriteIndex = b.WriteIndex) (h3 : a.Buffer = b.Buffer)
    (h4 : a.Capacity = b.Capacity) : a = b := by
  cases a; cases b; simp_all

/-- `CountRingBuffer` (RingBuffer.cpp:388): `WriteIndex - ReadIndex`. -/
def CountRingBuffer (rb : RB) : Nat :=
  rb.WriteIndex - rb.ReadIndex

/-- `FreeSpaceRingBuffer` (RingBuffer.cpp:393): `Capacity - CountRingBuffer`. -/
def FreeSpaceRingBuffer (rb : RB) : Nat :=
  rb.Capacity - CountRingBuffer rb

/-- `IsEmptyRingBuffer` (RingBuffer.cpp:398): `CountRingBuffer == 0`. -/
def IsEmptyRingBuffer (rb : RB) : Bool :=
  CountRingBuffer rb == 0

/-- `IsFullRingBuffer` (RingBuffer.cpp:403): `CountRingBuffer == Capacity`. -/
def IsFullRingBuffer (rb : RB) : Bool :=
  CountRingBuffer rb == rb.Capacity

/-- Byte-by-byte model of `memcpy(dst + dstOff, src + srcOff, n)` between
two distinct buffers: positions `dstOff .. dstOff+n-1` of `dst` receive
`src[srcOff] .. src[srcOff+n-1]`.  Out-of-range `List.set` is a no-op,
mirroring that the C code never issues an out-of-bounds copy on the paths
we verify (the bounds are re-established in the theorems). -/
def memcpy (dst : List Nat) (dstOff : Nat) (src : List Nat) (srcOff : Nat) :
    Nat → List Nat
  | 0 => dst
  | n + 1 =>
      memcpy (dst.set dstOff (src.getD srcOff 0)) (dstOff + 1) src (srcOff + 1) n

/-- `WriteByteRingBuffer` (RingBuffer.cpp:408): bail out when full, else
store at `WriteIndex % Capacity` and advance `WriteIndex`. -/
def WriteByteRingBuffer (rb : RB) (Data : Nat) : Nat × RB :=
  if IsFullRingBuffer rb then
    (0, rb)
  else
    (1, { rb with
            Buffer := rb.Buffer.set (rb.WriteIndex % rb.Capacity) Data
            WriteIndex := rb.WriteIndex + 1 })

/-- `WriteRingBuffer` (RingBuffer.cpp:420), fast version: early return on
`Capacity == 0`; `ToWrite = min(FreeSpace, Size)`; single `memcpy` when the
run fits before the end of the store, otherwise split at the boundary. -/
def WriteRingBuffer (rb : RB) (Data : List Nat) (Size : Nat) : Nat × RB :=
  if rb.Capacity = 0 then
    (0, rb)
  else
    let Index := rb.WriteIndex % rb.Capacity
    let FreeSpace := FreeSpaceRingBuffer rb
    let WriteSlack := rb.Capacity - Index
    let ToWrite := min FreeSpace Size
    if ToWrite = 0 then
      (0, rb)
    else if ToWrite ≤ WriteSlack then
      (ToWrite, { rb with
                    Buffer := memcpy rb.Buffer Index Data 0 ToWrite
                    WriteIndex := rb.WriteIndex + ToWrite })
    else
      (ToWrite, { rb with
                    Buffer := memcpy (memcpy rb.Buffer Index Data 0 WriteSlack)
                                0 Data WriteSlack (ToWrite - WriteSlack)
                    WriteIndex := rb.WriteIndex + ToWrite })

/-- `ReadByteRingBuffer` (RingBuffer.cpp:464): bail out when empty (the
caller's byte, passed in as `Data`, is returned untouched), else deliver
`Buffer[ReadIndex % Capacity]` and advance `ReadIndex`. -/
def ReadByteRingBuffer (rb : RB) (Data : Nat) : Nat × Nat × RB :=
  if IsEmptyRingBuffer rb then
    (0, Data, rb)
  else
    (1, rb.Buffer.getD (rb.ReadIndex % rb.Capacity) 0,
     { rb with ReadIndex := rb.ReadIndex + 1 })

/-- `ReadRingBuffer` (RingBuffer.cpp:476), fast version: early return on
`Capacity == 0`; `ToRead = min(Count, Size)`; single or split `memcpy` into
the caller's buffer `Data`. -/
def ReadRingBuffer (rb : RB) (Data : List Nat) (Size : Nat) : Nat × List Nat × RB :=
  if rb.Capacity = 0 then
    (0, Data, rb)
  else
    let Index := rb.ReadIndex % rb.Capacity
    let Count := CountRingBuffer rb
    let ReadSlack := rb.Capacity - Index
    let ToRead := min Count Size
    if ToRead = 0 then
      (0, Data, rb)
    else if ToRead ≤ ReadSlack then
      (ToRead, memcpy Data 0 rb.Buffer Index ToRead,
       { rb with ReadIndex := rb.ReadIndex + ToRead })
    else
      (ToRead, memcpy (memcpy Data 0 rb.Buffer Index ReadSlack)
                 ReadSlack rb.Buffer 0 (ToRead - ReadSlack),
       { rb with ReadIndex := rb.ReadIndex + ToRead })

/-- `InitializeRingBuffer` (RingBuffer.cpp:362): zero the struct; when
`Capacity > 0` allocate the backing store (`allocOk` stands for the
success of the external `malloc`, returning `0` on failure), record the
capacity and return it; for `Capacity == 0` nothing is allocated and the
zeroed struct is returned together with the requested capacity `0`. -/
def InitializeRingBuffer (allocOk : Bool) (Capacity : Nat) : Nat × RB :=
  let zeroed : RB := ⟨0, 0, [], 0⟩
  if 0 < Capacity then
    if allocOk then
      (Capacity, { zeroed with Buffer := List.replicate Capacity 0, Capacity := Capacity })
    else
      (0, zeroed)
  else
    (Capacity, zeroed)

/-- The state of a freshly (successfully) initialized buffer of the given
capacity: both cursors zero, store of `cap` (unobservable) zero bytes. -/
def initRB (cap : Nat) : RB :=
  (InitializeRingBuffer true cap).2

namespace Slow

/-- `FreeSpaceRingBuffer` of the byte-by-byte variant (RingBuffer.cpp:751):
the C expression is `Capacity - WriteIndex + ReadIndex` in `size_t`
arithmetic, which equals `(Capacity + ReadIndex) - WriteIndex` modulo
`2^64`; under `ReadIndex ≤ WriteIndex ≤ ReadIndex + Capacity` both are the
same natural number, written here in the reassociated, truncation-free
form. -/
def FreeSpaceRingBuffer (rb : RB) : Nat :=
  rb.Capacity + rb.ReadIndex - rb.WriteIndex

/-- `IsFullRingBuffer` of the byte-by-byte variant (RingBuffer.cpp:766). -/
def IsFullRingBuffer (rb : RB) : Bool :=
  FreeSpaceRingBuffer rb == 0

/-- `IsEmptyRingBuffer` of the byte-by-byte variant (RingBuffer.cpp:761). -/
def IsEmptyRingBuffer (rb : RB) : Bool :=
  CountRingBuffer rb == 0

/-- `WriteRingBuffer`, slow version (RingBuffer.cpp:771):
`while (!IsFullRingBuffer(..) && Size--) Buffer[WriteIndex++ % Capacity] = *(Data++);`
returning the number of bytes consumed (`Data - Start`).  The loop body
dereferences the data pointer, modelled by `headD`/`tail`. -/
def WriteRingBuffer : RB → List Nat → Nat → Nat × RB
  | rb, _, 0 => (0, rb)
  | rb, Data, s + 1 =>
      if IsFullRingBuffer rb then
        (0, rb)
      else
        let rb2 : RB := { rb with
                            Buffer := rb.Buffer.set (rb.WriteIndex % rb.Capacity) (Data.headD 0)
                            WriteIndex := rb.WriteIndex + 1 }
        let p := WriteRingBuffer rb2 Data.tail s
        (p.1 + 1, p.2)

/-- `ReadRingBuffer`, slow version (RingBuffer.cpp:787):
`while (!IsEmptyRingBuffer(..) && Size--) *(Data++) = Buffer[ReadIndex++ % Capacity];`
returning `Data - Start`.  The caller's output buffer is `Out` and the
advancing output pointer is the offset `off` into it. -/
def ReadRingBuffer : RB → List Nat → Nat → Nat → Nat × List Nat × RB
  | rb, Out, _, 0 => (0, Out, rb)
  | rb, Out, off, s + 1 =>
      if IsEmptyRingBuffer rb then
        (0, Out, rb)
      else
        let b := rb.Buffer.getD (rb.ReadIndex % rb.Capacity) 0
        let rb2 : RB := { rb with ReadIndex := rb.ReadIndex + 1 }
        let p := ReadRingBuffer rb2 (Out.set off b) (off + 1) s
        (p.1 + 1, p.2)

end Slow

/-! ## Derived notions used by the statements -/

/-- The reachable-state invariant: the read cursor never passes the write
cursor, the occupancy never exceeds the capacity, and the backing store
has exactly `Capacity` bytes. -/
def InvP (rb : RB) : Prop :=
  rb.ReadIndex ≤ rb.WriteIndex ∧
  rb.WriteIndex - rb.ReadIndex ≤ rb.Capacity ∧
  rb.Buffer.length = rb.Capacity

instance (rb : RB) : Decidable (InvP rb) := by
  unfold InvP; infer_instance

/-- The abstract FIFO content of the buffer: the `Count` unread bytes, in
read order, each fetched at its modular address. -/
def contents (rb : RB) : List Nat :=
  (List.range (CountRingBuffer rb)).map
    (fun i => rb.Buffer.getD ((rb.ReadIndex + i) % rb.Capacity) 0)

/-- Inverse of modular addressing: for `k < cap`, `wIdx w cap k` is the
unique `j < cap` with `(w + j) % cap = k`. -/
def wIdx (w cap k : Nat) : Nat :=
  (cap + k - w % cap) % cap

/-! ## Easy claims: degenerate capacity, construction, empty reads -/

/-- C6: zero-capacity degeneracy and totality.  On the buffer produced by
`InitializeRingBuffer` with capacity 0, every operation is total, returns
zero bytes transferred (`ReadByte` hands the caller's byte back untouched),
leaves the state unchanged, and the buffer is simultaneously empty and
full.  In each case the value returned is the one of the guard branch
(`Capacity == 0`, `IsFull`, `IsEmpty`), which the C code takes before any
`% Capacity`, so no modulus by zero is evaluated. -/
theorem zero_capacity_degenerate :
    ∀ (data out : List Nat) (size b old : Nat),
      WriteRingBuffer (initRB 0) data size = (0, initRB 0) ∧
      ReadRingBuffer (initRB 0) out size = (0, out, initRB 0) ∧
      WriteByteRingBuffer (initRB 0) b = (0, initRB 0) ∧
      ReadByteRingBuffer (initRB 0) old = (0, old, initRB 0) ∧
      IsEmptyRingBuffer (initRB 0) = true ∧
      IsFullRingBuffer (initRB 0) = true := by
  intro data out size b old
  refine ⟨?_, ?_, ?_, ?_, rfl, rfl⟩ <;>
    simp [WriteRingBuffer, ReadRingBuffer, WriteByteRingBuffer, ReadByteRingBuffer,
          IsFullRingBuffer, IsEmptyRingBuffer, CountRingBuffer, initRB, InitializeRingBuffer]

/-- C7: construction semantics.  `InitializeRingBuffer` returns the
requested capacity on success and `0` on allocation failure (`allocOk =
false` models `malloc` returning null, possible only when `Capacity > 0`
since no allocation is attempted otherwise); the resulting struct always
has both cursors `0`; the stored capacity is the requested one exactly
when the construction did not fail, and the backing store always matches
the stored capacity.  Capacity `0` never allocates: the result is the
zeroed struct regardless of the allocator. -/
theorem initialize_semantics :
    ∀ (a : Bool) (c : Nat),
      (InitializeRingBuffer a c).1 = (if a then c else 0) ∧
      (InitializeRingBuffer a c).2.ReadIndex = 0 ∧
      (InitializeRingBuffer a c).2.WriteIndex = 0 ∧
      (InitializeRingBuffer a c).2.Capacity = (if a then c else 0) ∧
      (InitializeRingBuffer a c).2.Buffer.length = (InitializeRingBuffer a c).2.Capacity ∧
      InitializeRingBuffer a 0 = (0, ⟨0, 0, [], 0⟩) := by
  intro a c
  cases a <;> rcases Nat.eq_zero_or_pos c with hc | hc <;>
    simp_all [InitializeRingBuffer]

/-- C8: idempotent emptiness.  When the occupancy is zero, `Read` and
`ReadByte` return `0` and the entire state — cursors and stored bytes —
is unchanged; hence iterating either read any number of times from the
empty buffer is the identity. -/
theorem empty_reads_idempotent :
    ∀ (rb : RB) (out : List Nat) (size old n : Nat),
      CountRingBuffer rb = 0 →
      ReadRingBuffer rb out size = (0, out, rb) ∧
      ReadByteRingBuffer rb old = (0, old, rb) ∧
      (fun s => (ReadByteRingBuffer s 0).2.2)^[n] rb = rb ∧
      (fun s => (ReadRingBuffer s out size).2.2)^[n] rb = rb := by
  intro rb out size old n h
  have hread : ∀ o : List Nat, ReadRingBuffer rb o size = (0, o, rb) := by
    intro o
    unfold ReadRingBuffer
    rcases Nat.eq_zero_or_pos rb.Capacity with hc | hc
    · simp [hc]
    · simp [Nat.pos_iff_ne_zero.mp hc, h]
  have hbyte : ∀ v : Nat, ReadByteRingBuffer rb v = (0, v, rb) := by
    intro v
    unfold ReadByteRingBuffer
    simp [IsEmptyRingBuffer, h]
  refine ⟨hread out, hbyte old, ?_, ?_⟩
  · induction n with
    | zero => rfl
    | succ k ih => rw [Function.iterate_succ_apply, hbyte 0, ih]
  · induction n with
    | zero => rfl
    | succ k ih => rw [Function.iterate_succ_apply, hread out, ih]

/-- Witness for `empty_reads_idempotent` at a concrete empty buffer. -/
theorem empty_reads_idempotent_witness :
    ReadRingBuffer (initRB 3) [1, 2] 2 = (0, [1, 2], initRB 3) ∧
    ReadByteRingBuffer (initRB 3) 9 = (0, 9, initRB 3) :=
  ⟨(empty_reads_idempotent (initRB 3) [1, 2] 2 9 2 (by decide)).1,
   (empty_reads_idempotent (initRB 3) [1, 2] 2 9 2 (by decide)).2.1⟩

/-- C10: a failed `ReadByte` writes nothing through the caller's output
location: on an empty buffer it returns `0` and the caller's byte — passed
in as `Data` and handed back unchanged — retains its prior value, with the
buffer untouched. -/
theorem readbyte_empty_output_untouched :
    ∀ (rb : RB) (old : Nat),
      CountRingBuffer rb = 0 → ReadByteRingBuffer rb old = (0, old, rb) := by
  intro rb old h
  unfold ReadByteRingBuffer
  simp [IsEmptyRingBuffer, h]

/-- Witness for `readbyte_empty_output_untouched`: the caller's byte `77`
survives a failed read on a fresh 4-byte buffer. -/
theorem readbyte_empty_output_untouched_witness :
    ReadByteRingBuffer (initRB 4) 77 = (0, 77, initRB 4) :=
  readbyte_empty_output_untouched (initRB 4) 77 (by decide)

/-! ## Pointwise characterisation of the copy primitives -/

theorem getD_set (l : List Nat) (i j v : Nat) :
    (l.set i v).getD j 0 = if i = j ∧ i < l.length then v else l.getD j 0 := by
  rw [List.getD_eq_getElem?_getD, List.getElem?_set, List.getD_eq_getElem?_getD]
  by_cases h1 : i = j
  · by_cases h2 : i < l.length
    · subst h1
      simp [h2]
    · subst h1
      simp [h2, List.getElem?_eq_none (Nat.le_of_not_lt h2)]
  · simp [h1]

theorem memcpy_length (src : List Nat) :
    ∀ (n : Nat) (dst : List Nat) (dOff sOff : Nat),
      (memcpy dst dOff src sOff n).length = dst.length := by
  intro n
  induction n with
  | zero => intro dst dOff sOff; rfl
  | succ m ih =>
      intro dst dOff sOff
      show (memcpy (dst.set dOff (src.getD sOff 0)) (dOff + 1) src (sOff + 1) m).length = _
      rw [ih, List.length_set]

theorem memcpy_getD (src : List Nat) :
    ∀ (n : Nat) (dst : List Nat) (dOff sOff k : Nat),
      (memcpy dst dOff src sOff n).getD k 0 =
        if dOff ≤ k ∧ k < dOff + n ∧ k < dst.length then
          src.getD (sOff + (k - dOff)) 0
        else dst.getD k 0 := by
  intro n
  induction n with
  | zero =>
      intro dst dOff sOff k
      rw [show memcpy dst dOff src sOff 0 = dst from rfl, if_neg (by omega)]
  | succ m ih =>
      intro dst dOff sOff k
      rw [show memcpy dst dOff src sOff (m + 1)
            = memcpy (dst.set dOff (src.getD sOff 0)) (dOff + 1) src (sOff + 1) m from rfl,
          ih, List.length_set, getD_set]
      by_cases h1 : dOff + 1 ≤ k ∧ k < dOff + 1 + m ∧ k < dst.length
      · rw [if_pos h1, if_pos (by omega)]
        congr 1
        omega
      · rw [if_neg h1]
        by_cases h2 : dOff = k ∧ dOff < dst.length
        · rw [if_pos h2, if_pos (by omega)]
          congr 1
          omega
        · rw [if_neg h2, if_neg (by omega)]

/-! ## Modular-address bookkeeping -/

theorem wIdx_val_ge {w cap k : Nat} (hcap : 0 < cap) (h : w % cap ≤ k) (hk : k < cap) :
    wIdx w cap k = k - w % cap := by
  unfold wIdx
  have ha : w % cap < cap := Nat.mod_lt w hcap
  rw [show cap + k - w % cap = cap + (k - w % cap) from by omega,
      Nat.add_mod_left, Nat.mod_eq_of_lt (by omega)]

theorem wIdx_val_lt {w cap k : Nat} (hcap : 0 < cap) (h : k < w % cap) :
    wIdx w cap k = cap + k - w % cap := by
  unfold wIdx
  have ha : w % cap < cap := Nat.mod_lt w hcap
  exact Nat.mod_eq_of_lt (by omega)

theorem wIdx_mod (w cap j : Nat) (hcap : 0 < cap) (hj : j < cap) :
    wIdx w cap ((w + j) % cap) = j := by
  have ha : w % cap < cap := Nat.mod_lt w hcap
  have hk : (w + j) % cap = (w % cap + j) % cap := (Nat.mod_add_mod w cap j).symm
  by_cases h : w % cap + j < cap
  · have hkv : (w + j) % cap = w % cap + j := by rw [hk, Nat.mod_eq_of_lt h]
    rw [hkv, wIdx_val_ge hcap (by omega) (by omega)]
    omega
  · have h2 : w % cap + j - cap < cap := by omega
    have hkv : (w + j) % cap = w % cap + j - cap := by
      rw [hk, Nat.mod_eq_sub_mod (by omega), Nat.mod_eq_of_lt h2]
    rw [hkv, wIdx_val_lt hcap (by omega)]
    omega

theorem mod_wIdx (w cap k : Nat) (hcap : 0 < cap) (hk : k < cap) :
    (w + wIdx w cap k) % cap = k := by
  have ha : w % cap < cap := Nat.mod_lt w hcap
  rw [← Nat.mod_add_mod]
  by_cases h : w % cap ≤ k
  · rw [wIdx_val_ge hcap h hk,
        show w % cap + (k - w % cap) = k from by omega, Nat.mod_eq_of_lt hk]
  · rw [wIdx_val_lt hcap (by omega),
        show w % cap + (cap + k - w % cap) = cap + k from by omega,
        Nat.add_mod_left, Nat.mod_eq_of_lt hk]

theorem wIdx_succ_eq (w cap k : Nat) (hcap : 0 < cap) (hk : k < cap) (h : k = w % cap) :
    wIdx (w + 1) cap k = cap - 1 ∧ wIdx w cap k = 0 := by
  have ha : w % cap < cap := Nat.mod_lt w hcap
  have ha1 : (w + 1) % cap = (w % cap + 1) % cap := (Nat.mod_add_mod w cap 1).symm
  subst h
  constructor
  · by_cases hc : w % cap + 1 < cap
    · have : (w + 1) % cap = w % cap + 1 := by rw [ha1, Nat.mod_eq_of_lt hc]
      rw [wIdx_val_lt hcap (by omega)]
      omega
    · have hcc : w % cap + 1 = cap := by omega
      have : (w + 1) % cap = 0 := by
        rw [ha1, hcc, Nat.mod_self]
      rw [wIdx_val_ge hcap (by omega) (by omega)]
      omega
  · rw [wIdx_val_ge hcap (by omega) (by omega)]
    omega

theorem wIdx_succ_ne (w cap k : Nat) (hcap : 0 < cap) (hk : k < cap) (h : k ≠ w % cap) :
    wIdx w cap k = wIdx (w + 1) cap k + 1 := by
  have ha : w % cap < cap := Nat.mod_lt w hcap
  have ha1 : (w + 1) % cap = (w % cap + 1) % cap := (Nat.mod_add_mod w cap 1).symm
  by_cases hc : w % cap + 1 < cap
  · have hv : (w + 1) % cap = w % cap + 1 := by rw [ha1, Nat.mod_eq_of_lt hc]
    by_cases h2 : w % cap ≤ k
    · have h3 : w % cap + 1 ≤ k := by omega
      rw [wIdx_val_ge hcap h2 hk, wIdx_val_ge hcap (by omega) hk]
      omega
    · rw [wIdx_val_lt hcap (by omega), wIdx_val_lt hcap (by omega)]
      omega
  · have hcc : w % cap + 1 = cap := by omega
    have hv : (w + 1) % cap = 0 := by rw [ha1, hcc, Nat.mod_self]
    have h2 : k < w % cap := by omega
    rw [wIdx_val_lt hcap h2, wIdx_val_ge hcap (by omega) hk]
    omega

/-! ## Branch equations of the fast operations -/

theorem WriteRingBuffer_zero (rb : RB) (Data : List Nat) (Size : Nat)
    (h : rb.Capacity ≠ 0) (h0 : min (FreeSpaceRingBuffer rb) Size = 0) :
    WriteRingBuffer rb Data Size = (0, rb) := by
  simp [WriteRingBuffer, h, h0]

theorem WriteRingBuffer_nosplit (rb : RB) (Data : List Nat) (Size : Nat)
    (h : rb.Capacity ≠ 0) (h0 : min (FreeSpaceRingBuffer rb) Size ≠ 0)
    (hle : min (FreeSpaceRingBuffer rb) Size
             ≤ rb.Capacity - rb.WriteIndex % rb.Capacity) :
    WriteRingBuffer rb Data Size =
      (min (FreeSpaceRingBuffer rb) Size,
       { rb with
           Buffer := memcpy rb.Buffer (rb.WriteIndex % rb.Capacity) Data 0
                       (min (FreeSpaceRingBuffer rb) Size)
           WriteIndex := rb.WriteIndex + min (FreeSpaceRingBuffer rb) Size }) := by
  simp [WriteRingBuffer, h, h0, hle]

theorem WriteRingBuffer_split (rb : RB) (Data : List Nat) (Size : Nat)
    (h : rb.Capacity ≠ 0) (h0 : min (FreeSpaceRingBuffer rb) Size ≠ 0)
    (hgt : rb.Capacity - rb.WriteIndex % rb.Capacity
             < min (FreeSpaceRingBuffer rb) Size) :
    WriteRingBuffer rb Data Size =
      (min (FreeSpaceRingBuffer rb) Size,
       { rb with
           Buffer := memcpy
               (memcpy rb.Buffer (rb.WriteIndex % rb.Capacity) Data 0
                  (rb.Capacity - rb.WriteIndex % rb.Capacity))
               0 Data (rb.Capacity - rb.WriteIndex % rb.Capacity)
               (min (FreeSpaceRingBuffer rb) Size
                  - (rb.Capacity - rb.WriteIndex % rb.Capacity))
           WriteIndex := rb.WriteIndex + min (FreeSpaceRingBuffer rb) Size }) := by
  simp [WriteRingBuffer, h, h0, Nat.not_le.mpr hgt]

theorem ReadRingBuffer_zero (rb : RB) (Out : List Nat) (Size : Nat)
    (h : rb.Capacity ≠ 0) (h0 : min (CountRingBuffer rb) Size = 0) :
    ReadRingBuffer rb Out Size = (0, Out, rb) := by
  simp [ReadRingBuffer, h, h0]

theorem ReadRingBuffer_nosplit (rb : RB) (Out : List Nat) (Size : Nat)
    (h : rb.Capacity ≠ 0) (h0 : min (CountRingBuffer rb) Size ≠ 0)
    (hle : min (CountRingBuffer rb) Size
             ≤ rb.Capacity - rb.ReadIndex % rb.Capacity) :
    ReadRingBuffer rb Out Size =
      (min (CountRingBuffer rb) Size,
       memcpy Out 0 rb.Buffer (rb.ReadIndex % rb.Capacity)
         (min (CountRingBuffer rb) Size),
       { rb with ReadIndex := rb.ReadIndex + min (CountRingBuffer rb) Size }) := by
  simp [ReadRingBuffer, h, h0, hle]

theorem ReadRingBuffer_split (rb : RB) (Out : List Nat) (Size : Nat)
    (h : rb.Capacity ≠ 0) (h0 : min (CountRingBuffer rb) Size ≠ 0)
    (hgt : rb.Capacity - rb.ReadIndex % rb.Capacity
             < min (CountRingBuffer rb) Size) :
    ReadRingBuffer rb Out Size =
      (min (CountRingBuffer rb) Size,
       memcpy
         (memcpy Out 0 rb.Buffer (rb.ReadIndex % rb.Capacity)
            (rb.Capacity - rb.ReadIndex % rb.Capacity))
         (rb.Capacity - rb.ReadIndex % rb.Capacity) rb.Buffer 0
         (min (CountRingBuffer rb) Size
            - (rb.Capacity - rb.ReadIndex % rb.Capacity)),
       { rb with ReadIndex := rb.ReadIndex + min (CountRingBuffer rb) Size }) := by
  simp [ReadRingBuffer, h, h0, Nat.not_le.mpr hgt]

/-! ## Net effect of the fast operations -/

/-- Net effect of the fast `WriteRingBuffer` on an invariant state with
positive capacity: it accepts `min(FreeSpace, Size)` bytes, advances only
the write cursor by that amount, and stores byte `j` of the input at
modular address `(WriteIndex + j) % Capacity`, leaving every other cell
untouched — stated pointwise through the address inverse `wIdx`. -/
theorem write_effect (rb : RB) (Data : List Nat) (Size : Nat)
    (hinv : InvP rb) (hcap : 0 < rb.Capacity) :
    (WriteRingBuffer rb Data Size).1 = min (FreeSpaceRingBuffer rb) Size ∧
    (WriteRingBuffer rb Data Size).2.ReadIndex = rb.ReadIndex ∧
    (WriteRingBuffer rb Data Size).2.WriteIndex
        = rb.WriteIndex + min (FreeSpaceRingBuffer rb) Size ∧
    (WriteRingBuffer rb Data Size).2.Capacity = rb.Capacity ∧
    (WriteRingBuffer rb Data Size).2.Buffer.length = rb.Capacity ∧
    (∀ k, k < rb.Capacity →
      (WriteRingBuffer rb Data Size).2.Buffer.getD k 0 =
        if wIdx rb.WriteIndex rb.Capacity k < min (FreeSpaceRingBuffer rb) Size then
          Data.getD (wIdx rb.WriteIndex rb.Capacity k) 0
        else rb.Buffer.getD k 0) := by
  obtain ⟨hrw, hcnt, hlen⟩ := hinv
  have hne : rb.Capacity ≠ 0 := by omega
  have ha : rb.WriteIndex % rb.Capacity < rb.Capacity := Nat.mod_lt _ hcap
  have hTcap : min (FreeSpaceRingBuffer rb) Size ≤ rb.Capacity :=
    le_trans (Nat.min_le_left _ _) (Nat.sub_le _ _)
  by_cases h0 : min (FreeSpaceRingBuffer rb) Size = 0
  · rw [WriteRingBuffer_zero rb Data Size hne h0]
    refine ⟨h0.symm, rfl, ?_, rfl, hlen, ?_⟩
    · show rb.WriteIndex = rb.WriteIndex + min (FreeSpaceRingBuffer rb) Size
      omega
    · intro k hk
      rw [if_neg (by omega)]
  · by_cases hle : min (FreeSpaceRingBuffer rb) Size
                     ≤ rb.Capacity - rb.WriteIndex % rb.Capacity
    · rw [WriteRingBuffer_nosplit rb Data Size hne h0 hle]
      refine ⟨rfl, rfl, rfl, rfl, ?_, ?_⟩
      · rw [memcpy_length]
        exact hlen
      · intro k hk
        rw [memcpy_getD, hlen]
        by_cases h2 : rb.WriteIndex % rb.Capacity ≤ k
        · rw [wIdx_val_ge hcap h2 hk]
          by_cases h3 : k - rb.WriteIndex % rb.Capacity
                          < min (FreeSpaceRingBuffer rb) Size
          · rw [if_pos ⟨h2, by omega, hk⟩, if_pos h3]
            congr 1
            omega
          · rw [if_neg (by omega), if_neg h3]
        · rw [wIdx_val_lt hcap (by omega), if_neg (by omega), if_neg (by omega)]
    · have hgt := Nat.not_le.mp hle
      rw [WriteRingBuffer_split rb Data Size hne h0 hgt]
      refine ⟨rfl, rfl, rfl, rfl, ?_, ?_⟩
      · rw [memcpy_length, memcpy_length]
        exact hlen
      · intro k hk
        rw [memcpy_getD, memcpy_length, hlen, memcpy_getD, hlen]
        by_cases h2 : rb.WriteIndex % rb.Capacity ≤ k
        · rw [wIdx_val_ge hcap h2 hk, if_neg (by omega),
              if_pos ⟨h2, by omega, hk⟩, if_pos (by omega)]
          congr 1
          omega
        · rw [wIdx_val_lt hcap (by omega)]
          by_cases h3 : k < min (FreeSpaceRingBuffer rb) Size
                          - (rb.Capacity - rb.WriteIndex % rb.Capacity)
          · rw [if_pos ⟨Nat.zero_le k, by omega, hk⟩, if_pos (by omega)]
            congr 1
            omega
          · rw [if_neg (by omega), if_neg (by omega), if_neg (by omega)]

/-- Net effect of the fast `ReadRingBuffer` on an invariant state with
positive capacity: it delivers `min(Count, Size)` bytes taken from modular
addresses `(ReadIndex + k) % Capacity` into positions `0 .. ToRead-1` of
the caller's buffer (whose other positions survive), advances only the
read cursor, and never touches the backing store. -/
theorem read_effect (rb : RB) (Out : List Nat) (Size : Nat)
    (hinv : InvP rb) (hcap : 0 < rb.Capacity) :
    (ReadRingBuffer rb Out Size).1 = min (CountRingBuffer rb) Size ∧
    (ReadRingBuffer rb Out Size).2.2.ReadIndex
        = rb.ReadIndex + min (CountRingBuffer rb) Size ∧
    (ReadRingBuffer rb Out Size).2.2.WriteIndex = rb.WriteIndex ∧
    (ReadRingBuffer rb Out Size).2.2.Capacity = rb.Capacity ∧
    (ReadRingBuffer rb Out Size).2.2.Buffer = rb.Buffer ∧
    (ReadRingBuffer rb Out Size).2.1.length = Out.length ∧
    (∀ k, (ReadRingBuffer rb Out Size).2.1.getD k 0 =
      if k < min (CountRingBuffer rb) Size ∧ k < Out.length then
        rb.Buffer.getD ((rb.ReadIndex + k) % rb.Capacity) 0
      else Out.getD k 0) := by
  obtain ⟨hrw, hcnt, hlen⟩ := hinv
  have hne : rb.Capacity ≠ 0 := by omega
  have hr : rb.ReadIndex % rb.Capacity < rb.Capacity := Nat.mod_lt _ hcap
  have hTcap : min (CountRingBuffer rb) Size ≤ rb.Capacity :=
    le_trans (Nat.min_le_left _ _) (by unfold CountRingBuffer; omega)
  have hm1 : ∀ k, k < rb.Capacity - rb.ReadIndex % rb.Capacity →
      (rb.ReadIndex + k) % rb.Capacity = rb.ReadIndex % rb.Capacity + k := by
    intro k hk
    rw [← Nat.mod_add_mod, Nat.mod_eq_of_lt (by omega)]
  have hm2 : ∀ k, rb.Capacity - rb.ReadIndex % rb.Capacity ≤ k → k < rb.Capacity →
      (rb.ReadIndex + k) % rb.Capacity
        = rb.ReadIndex % rb.Capacity + k - rb.Capacity := by
    intro k h1 h2
    rw [← Nat.mod_add_mod, Nat.mod_eq_sub_mod (by omega), Nat.mod_eq_of_lt (by omega)]
  by_cases h0 : min (CountRingBuffer rb) Size = 0
  · rw [ReadRingBuffer_zero rb Out Size hne h0]
    refine ⟨h0.symm, ?_, rfl, rfl, rfl, rfl, ?_⟩
    · show rb.ReadIndex = rb.ReadIndex + min (CountRingBuffer rb) Size
      omega
    · intro k
      rw [if_neg (by omega)]
  · by_cases hle : min (CountRingBuffer rb) Size
                     ≤ rb.Capacity - rb.ReadIndex % rb.Capacity
    · rw [ReadRingBuffer_nosplit rb Out Size hne h0 hle]
      refine ⟨rfl, rfl, rfl, rfl, rfl, by rw [memcpy_length], ?_⟩
      intro k
      rw [memcpy_getD]
      by_cases h2 : k < min (CountRingBuffer rb) Size ∧ k < Out.length
      · rw [if_pos ⟨Nat.zero_le k, by omega, h2.2⟩, if_pos h2, hm1 k (by omega)]
        congr 1
      · rw [if_neg (by omega), if_neg h2]
    · have hgt := Nat.not_le.mp hle
      rw [ReadRingBuffer_split rb Out Size hne h0 hgt]
      refine ⟨rfl, rfl, rfl, rfl, rfl, by rw [memcpy_length, memcpy_length], ?_⟩
      intro k
      rw [memcpy_getD, memcpy_length, memcpy_getD]
      by_cases hkl : k < Out.length
      · by_cases hks : k < rb.Capacity - rb.ReadIndex % rb.Capacity
        · rw [if_neg (by omega), if_pos ⟨Nat.zero_le k, by omega, hkl⟩,
              if_pos (by omega), hm1 k hks]
          congr 1
        · by_cases hkt : k < min (CountRingBuffer rb) Size
          · rw [if_pos ⟨by omega, by omega, hkl⟩, if_pos (by omega),
                hm2 k (by omega) (by omega)]
            congr 1
            omega
          · rw [if_neg (by omega), if_neg (by omega), if_neg (by omega)]
      · rw [if_neg (by omega), if_neg (by omega), if_neg (by omega)]

/-! ## Byte operations: branch equations -/

theorem writeByte_full (rb : RB) (b : Nat) (h : CountRingBuffer rb = rb.Capacity) :
    WriteByteRingBuffer rb b = (0, rb) := by
  simp [WriteByteRingBuffer, IsFullRingBuffer, h]

theorem writeByte_not_full (rb : RB) (b : Nat) (h : CountRingBuffer rb ≠ rb.Capacity) :
    WriteByteRingBuffer rb b =
      (1, { rb with
              Buffer := rb.Buffer.set (rb.WriteIndex % rb.Capacity) b
              WriteIndex := rb.WriteIndex + 1 }) := by
  simp [WriteByteRingBuffer, IsFullRingBuffer, h]

theorem readByte_empty (rb : RB) (v : Nat) (h : CountRingBuffer rb = 0) :
    ReadByteRingBuffer rb v = (0, v, rb) := by
  simp [ReadByteRingBuffer, IsEmptyRingBuffer, h]

theorem readByte_not_empty (rb : RB) (v : Nat) (h : CountRingBuffer rb ≠ 0) :
    ReadByteRingBuffer rb v =
      (1, rb.Buffer.getD (rb.ReadIndex % rb.Capacity) 0,
       { rb with ReadIndex := rb.ReadIndex + 1 }) := by
  simp [ReadByteRingBuffer, IsEmptyRingBuffer, h]

/-! ## The abstract FIFO content and how each operation transforms it -/

theorem contents_length (rb : RB) : (contents rb).length = CountRingBuffer rb := by
  simp [contents]

theorem contents_getElem (rb : RB) (i : Nat) (h : i < (contents rb).length) :
    (contents rb)[i] = rb.Buffer.getD ((rb.ReadIndex + i) % rb.Capacity) 0 := by
  simp [contents]

theorem getElem_eq_getD (l : List Nat) (i : Nat) (h : i < l.length) :
    l[i] = l.getD i 0 :=
  (List.getD_eq_getElem l 0 h).symm

theorem getD_take (l : List Nat) (n j : Nat) (hj : j < n) (hjl : j < l.length) :
    (l.take n).getD j 0 = l.getD j 0 := by
  rw [List.getD_eq_getElem _ 0 (by rw [List.length_take]; omega),
      List.getElem_take, List.getD_eq_getElem _ 0 hjl]

/-- A write appends the accepted prefix of the input to the abstract
content. -/
theorem contents_write (rb : RB) (Data : List Nat) (Size : Nat)
    (hinv : InvP rb) (hsz : Size ≤ Data.length) :
    contents (WriteRingBuffer rb Data Size).2
      = contents rb ++ Data.take (min (FreeSpaceRingBuffer rb) Size) := by
  obtain ⟨hrw, hcnt, hlen⟩ := hinv
  rcases Nat.eq_zero_or_pos rb.Capacity with hc | hc
  · have hz : WriteRingBuffer rb Data Size = (0, rb) := by
      simp [WriteRingBuffer, hc]
    have hf : FreeSpaceRingBuffer rb = 0 := by
      unfold FreeSpaceRingBuffer
      omega
    rw [hz, hf]
    simp
  · obtain ⟨hret, hri, hwi, hcap2, hlen2, hbuf⟩ :=
      write_effect rb Data Size ⟨hrw, hcnt, hlen⟩ hc
    have hT : min (FreeSpaceRingBuffer rb) Size ≤ Data.length :=
      le_trans (Nat.min_le_right _ _) hsz
    have hTf : min (FreeSpaceRingBuffer rb) Size ≤ FreeSpaceRingBuffer rb :=
      Nat.min_le_left _ _
    have hfs : FreeSpaceRingBuffer rb = rb.Capacity - CountRingBuffer rb := rfl
    have hcount : CountRingBuffer rb = rb.WriteIndex - rb.ReadIndex := rfl
    have hcnt2 : CountRingBuffer (WriteRingBuffer rb Data Size).2
        = CountRingBuffer rb + min (FreeSpaceRingBuffer rb) Size := by
      unfold CountRingBuffer
      rw [hri, hwi]
      omega
    apply List.ext_getElem
    · rw [contents_length, hcnt2, List.length_append, contents_length,
          List.length_take]
      omega
    · intro i h1 h2
      rw [contents_getElem _ _ h1, hri, hcap2]
      have hi : i < CountRingBuffer rb + min (FreeSpaceRingBuffer rb) Size := by
        rw [← hcnt2, ← contents_length]
        exact h1
      by_cases hlt : i < CountRingBuffer rb
      · -- untouched prefix of the old content
        have hmod : (rb.ReadIndex + i) % rb.Capacity < rb.Capacity :=
          Nat.mod_lt _ hc
        have hj : (rb.ReadIndex + i) % rb.Capacity
            = (rb.WriteIndex + (rb.Capacity - CountRingBuffer rb + i)) % rb.Capacity := by
          have : rb.WriteIndex + (rb.Capacity - CountRingBuffer rb + i)
              = rb.ReadIndex + i + rb.Capacity := by
            unfold CountRingBuffer
            omega
          rw [this, Nat.add_mod_right]
        have hw : wIdx rb.WriteIndex rb.Capacity ((rb.ReadIndex + i) % rb.Capacity)
            = rb.Capacity - CountRingBuffer rb + i := by
          rw [hj, wIdx_mod _ _ _ hc (by omega)]
        rw [hbuf _ hmod, hw, if_neg (by omega),
            List.getElem_append_left (by rw [contents_length]; omega),
            contents_getElem]
      · -- the freshly written bytes
        have hj : i = CountRingBuffer rb + (i - CountRingBuffer rb) := by omega
        have hjlt : i - CountRingBuffer rb < min (FreeSpaceRingBuffer rb) Size := by
          omega
        have hmod : (rb.ReadIndex + i) % rb.Capacity < rb.Capacity :=
          Nat.mod_lt _ hc
        have heq : rb.ReadIndex + i
            = rb.WriteIndex + (i - CountRingBuffer rb) := by
          unfold CountRingBuffer
          omega
        have hw : wIdx rb.WriteIndex rb.Capacity ((rb.ReadIndex + i) % rb.Capacity)
            = i - CountRingBuffer rb := by
          rw [heq, wIdx_mod _ _ _ hc (by omega)]
        rw [hbuf _ hmod, hw, if_pos hjlt,
            List.getElem_append_right (by rw [contents_length]; omega),
            getElem_eq_getD, contents_length,
            getD_take Data _ _ hjlt (by omega)]

/-- A read drops the delivered prefix from the abstract content. -/
theorem contents_read (rb : RB) (Out : List Nat) (Size : Nat) (hinv : InvP rb) :
    contents (ReadRingBuffer rb Out Size).2.2
      = (contents rb).drop (min (CountRingBuffer rb) Size) := by
  obtain ⟨hrw, hcnt, hlen⟩ := hinv
  rcases Nat.eq_zero_or_pos rb.Capacity with hc | hc
  · have hz : ReadRingBuffer rb Out Size = (0, Out, rb) := by
      simp [ReadRingBuffer, hc]
    have hcount : CountRingBuffer rb = 0 := by
      unfold CountRingBuffer
      omega
    rw [hz, hcount]
    simp
  · obtain ⟨hret, hri, hwi, hcap2, hbuf, hol, hod⟩ :=
      read_effect rb Out Size ⟨hrw, hcnt, hlen⟩ hc
    have hTc : min (CountRingBuffer rb) Size ≤ CountRingBuffer rb :=
      Nat.min_le_left _ _
    have hcnt2 : CountRingBuffer (ReadRingBuffer rb Out Size).2.2
        = CountRingBuffer rb - min (CountRingBuffer rb) Size := by
      unfold CountRingBuffer
      rw [hri, hwi]
      unfold CountRingBuffer
      omega
    apply List.ext_getElem
    · rw [contents_length, hcnt2, List.length_drop, contents_length]
    · intro i h1 h2
      rw [contents_getElem _ _ h1, hri, hcap2, hbuf, List.getElem_drop,
          contents_getElem]
      congr 2
      omega

/-- The bytes a read delivers are the corresponding prefix of the abstract
content. -/
theorem read_delivered (rb : RB) (Out : List Nat) (Size : Nat)
    (hinv : InvP rb) (hout : Size ≤ Out.length) :
    ((ReadRingBuffer rb Out Size).2.1).take (min (CountRingBuffer rb) Size)
      = (contents rb).take (min (CountRingBuffer rb) Size) := by
  obtain ⟨hrw, hcnt, hlen⟩ := hinv
  rcases Nat.eq_zero_or_pos rb.Capacity with hc | hc
  · have hcount : CountRingBuffer rb = 0 := by
      unfold CountRingBuffer
      omega
    rw [hcount]
    simp
  · obtain ⟨hret, hri, hwi, hcap2, hbuf, hol, hod⟩ :=
      read_effect rb Out Size ⟨hrw, hcnt, hlen⟩ hc
    have hTc : min (CountRingBuffer rb) Size ≤ CountRingBuffer rb :=
      Nat.min_le_left _ _
    have hTs : min (CountRingBuffer rb) Size ≤ Size := Nat.min_le_right _ _
    apply List.ext_getElem
    · rw [List.length_take, List.length_take, hol, contents_length]
      omega
    · intro i h1 h2
      have hi : i < min (CountRingBuffer rb) Size := by
        rw [List.length_take] at h1
        omega
      rw [List.getElem_take, List.getElem_take,
          ← List.getD_eq_getElem ((ReadRingBuffer rb Out Size).2.1) 0,
          hod, if_pos ⟨hi, by omega⟩, contents_getElem]

/-! ## Claims about single operations -/

/-- C3: write postcondition.  On any invariant state with positive
capacity, `Write` returns `min(Size, FreeSpace)`, advances the write
cursor by exactly that count with the read cursor unchanged, stores input
byte `j` at modular address `(WriteIndex + j) % Capacity` for every
`j < bytesWritten` (the two-segment split of the C code realises exactly
this address map), and leaves every cell outside those addresses
untouched. -/
theorem write_postcondition (rb : RB) (Data : List Nat) (Size : Nat)
    (hinv : InvP rb) (hcap : 0 < rb.Capacity) :
    (WriteRingBuffer rb Data Size).1 = min Size (FreeSpaceRingBuffer rb) ∧
    (WriteRingBuffer rb Data Size).2.WriteIndex
        = rb.WriteIndex + (WriteRingBuffer rb Data Size).1 ∧
    (WriteRingBuffer rb Data Size).2.ReadIndex = rb.ReadIndex ∧
    (WriteRingBuffer rb Data Size).2.Capacity = rb.Capacity ∧
    (WriteRingBuffer rb Data Size).2.Buffer.length = rb.Capacity ∧
    (∀ j, j < (WriteRingBuffer rb Data Size).1 →
      (WriteRingBuffer rb Data Size).2.Buffer.getD
          ((rb.WriteIndex + j) % rb.Capacity) 0 = Data.getD j 0) ∧
    (∀ k, k < rb.Capacity →
      (∀ j, j < (WriteRingBuffer rb Data Size).1 →
          k ≠ (rb.WriteIndex + j) % rb.Capacity) →
      (WriteRingBuffer rb Data Size).2.Buffer.getD k 0 = rb.Buffer.getD k 0) := by
  obtain ⟨hret, hri, hwi, hcap2, hlen2, hbuf⟩ := write_effect rb Data Size hinv hcap
  have hTcap : min (FreeSpaceRingBuffer rb) Size ≤ rb.Capacity :=
    le_trans (Nat.min_le_left _ _) (Nat.sub_le _ _)
  refine ⟨by rw [hret, Nat.min_comm], by rw [hwi, hret], hri, hcap2, hlen2, ?_, ?_⟩
  · intro j hj
    rw [hret] at hj
    have hjcap : j < rb.Capacity := by omega
    have hmod : (rb.WriteIndex + j) % rb.Capacity < rb.Capacity := Nat.mod_lt _ hcap
    rw [hbuf _ hmod, wIdx_mod _ _ _ hcap hjcap, if_pos hj]
  · intro k hk hnot
    rw [hret] at hnot
    rw [hbuf _ hk, if_neg]
    intro hcon
    exact hnot _ hcon (mod_wIdx rb.WriteIndex rb.Capacity k hcap hk).symm

/-- Witness for `write_postcondition`: a split (wraparound) write of 3
requested bytes into 2 free cells starting at physical index 3 of 4. -/
theorem write_postcondition_witness :
    InvP (⟨5, 7, [10, 11, 12, 13], 4⟩ : RB) ∧
    0 < (⟨5, 7, [10, 11, 12, 13], 4⟩ : RB).Capacity ∧
    (WriteRingBuffer (⟨5, 7, [10, 11, 12, 13], 4⟩ : RB) [7, 8, 9] 3).1
      = min 3 (FreeSpaceRingBuffer (⟨5, 7, [10, 11, 12, 13], 4⟩ : RB)) :=
  ⟨by decide, by decide,
   (write_postcondition (⟨5, 7, [10, 11, 12, 13], 4⟩ : RB) [7, 8, 9] 3
      (by decide) (by decide)).1⟩

/-- C5: saturation.  On any invariant state, a write requesting more than
the free space returns exactly the free space and leaves the buffer full,
and a read requesting more than the occupancy returns exactly the
occupancy and leaves the buffer empty. -/
theorem saturation (rb : RB) (Data Out : List Nat) (wSize rSize : Nat)
    (hinv : InvP rb) :
    (FreeSpaceRingBuffer rb < wSize →
      (WriteRingBuffer rb Data wSize).1 = FreeSpaceRingBuffer rb ∧
      IsFullRingBuffer (WriteRingBuffer rb Data wSize).2 = true) ∧
    (CountRingBuffer rb < rSize →
      (ReadRingBuffer rb Out rSize).1 = CountRingBuffer rb ∧
      IsEmptyRingBuffer (ReadRingBuffer rb Out rSize).2.2 = true) := by
  obtain ⟨hrw, hcnt, hlen⟩ := hinv
  rcases Nat.eq_zero_or_pos rb.Capacity with hc | hc
  · have hz : WriteRingBuffer rb Data wSize = (0, rb) := by
      simp [WriteRingBuffer, hc]
    have hz2 : ReadRingBuffer rb Out rSize = (0, Out, rb) := by
      simp [ReadRingBuffer, hc]
    have hfs : FreeSpaceRingBuffer rb = 0 := by
      unfold FreeSpaceRingBuffer
      omega
    have hcc : CountRingBuffer rb = 0 := by
      unfold CountRingBuffer
      omega
    constructor
    · intro _
      exact ⟨by rw [hz, hfs], by rw [hz]; simp [IsFullRingBuffer, hcc, hc]⟩
    · intro _
      exact ⟨by rw [hz2, hcc], by rw [hz2]; simp [IsEmptyRingBuffer, hcc]⟩
  · obtain ⟨hret, hri, hwi, hcap2, hlen2, hbuf⟩ :=
      write_effect rb Data wSize ⟨hrw, hcnt, hlen⟩ hc
    obtain ⟨hret2, hri2, hwi2, hcap3, hbuf2, hol, hod⟩ :=
      read_effect rb Out rSize ⟨hrw, hcnt, hlen⟩ hc
    constructor
    · intro hover
      have hmin : min (FreeSpaceRingBuffer rb) wSize = FreeSpaceRingBuffer rb := by
        omega
      refine ⟨by rw [hret, hmin], ?_⟩
      have hfull : CountRingBuffer (WriteRingBuffer rb Data wSize).2 = rb.Capacity := by
        unfold CountRingBuffer
        rw [hri, hwi, hmin]
        unfold FreeSpaceRingBuffer CountRingBuffer
        omega
      simp [IsFullRingBuffer, hfull, hcap2]
    · intro hover
      have hmin : min (CountRingBuffer rb) rSize = CountRingBuffer rb := by
        omega
      refine ⟨by rw [hret2, hmin], ?_⟩
      have hempty : CountRingBuffer (ReadRingBuffer rb Out rSize).2.2 = 0 := by
        unfold CountRingBuffer
        rw [hri2, hwi2, hmin]
        unfold CountRingBuffer
        omega
      simp [IsEmptyRingBuffer, hempty]

/-- Witness for `saturation`: on a 2-byte buffer holding 1 byte, an
oversized write accepts exactly 1 byte and fills it; an oversized read
delivers exactly 1 byte and empties it. -/
theorem saturation_witness :
    InvP (⟨0, 1, [5, 0], 2⟩ : RB) ∧
    FreeSpaceRingBuffer (⟨0, 1, [5, 0], 2⟩ : RB) < 5 ∧
    CountRingBuffer (⟨0, 1, [5, 0], 2⟩ : RB) < 5 ∧
    (WriteRingBuffer (⟨0, 1, [5, 0], 2⟩ : RB) [1, 2, 3, 4, 5] 5).1
      = FreeSpaceRingBuffer (⟨0, 1, [5, 0], 2⟩ : RB) ∧
    IsFullRingBuffer (WriteRingBuffer (⟨0, 1, [5, 0], 2⟩ : RB) [1, 2, 3, 4, 5] 5).2
      = true ∧
    (ReadRingBuffer (⟨0, 1, [5, 0], 2⟩ : RB) [0, 0, 0, 0, 0] 5).1
      = CountRingBuffer (⟨0, 1, [5, 0], 2⟩ : RB) ∧
    IsEmptyRingBuffer
      (ReadRingBuffer (⟨0, 1, [5, 0], 2⟩ : RB) [0, 0, 0, 0, 0] 5).2.2 = true :=
  ⟨by decide, by decide, by decide,
   ((saturation (⟨0, 1, [5, 0], 2⟩ : RB) [1, 2, 3, 4, 5] [0, 0, 0, 0, 0] 5 5
      (by decide)).1 (by decide)).1,
   ((saturation (⟨0, 1, [5, 0], 2⟩ : RB) [1, 2, 3, 4, 5] [0, 0, 0, 0, 0] 5 5
      (by decide)).1 (by decide)).2,
   ((saturation (⟨0, 1, [5, 0], 2⟩ : RB) [1, 2, 3, 4, 5] [0, 0, 0, 0, 0] 5 5
      (by decide)).2 (by decide)).1,
   ((saturation (⟨0, 1, [5, 0], 2⟩ : RB) [1, 2, 3, 4, 5] [0, 0, 0, 0, 0] 5 5
      (by decide)).2 (by decide)).2⟩

/-! ## The byte-by-byte (slow) loops: step equations and characterisation -/

theorem headD_eq_getD (l : List Nat) : l.headD 0 = l.getD 0 0 := by
  cases l <;> rfl

theorem tail_getD (l : List Nat) (n : Nat) : l.tail.getD n 0 = l.getD (n + 1) 0 := by
  cases l <;> rfl

theorem slow_write_zero_size (rb : RB) (Data : List Nat) :
    Slow.WriteRingBuffer rb Data 0 = (0, rb) := rfl

theorem slow_write_full (rb : RB) (Data : List Nat) (s : Nat)
    (h : Slow.IsFullRingBuffer rb = true) :
    Slow.WriteRingBuffer rb Data (s + 1) = (0, rb) := by
  simp [Slow.WriteRingBuffer, h]

theorem slow_write_step (rb : RB) (Data : List Nat) (s : Nat)
    (h : Slow.IsFullRingBuffer rb = false) :
    Slow.WriteRingBuffer rb Data (s + 1)
      = ((Slow.WriteRingBuffer
            { rb with
                Buffer := rb.Buffer.set (rb.WriteIndex % rb.Capacity) (Data.headD 0)
                WriteIndex := rb.WriteIndex + 1 } Data.tail s).1 + 1,
         (Slow.WriteRingBuffer
            { rb with
                Buffer := rb.Buffer.set (rb.WriteIndex % rb.Capacity) (Data.headD 0)
                WriteIndex := rb.WriteIndex + 1 } Data.tail s).2) := by
  simp [Slow.WriteRingBuffer, h]

/-- The slow write loop has exactly the net effect of the fast write: same
count, same cursors, and the same pointwise store update. -/
theorem slow_write_spec :
    ∀ (Size : Nat) (rb : RB) (Data : List Nat), InvP rb → 0 < rb.Capacity →
      (Slow.WriteRingBuffer rb Data Size).1 = min (FreeSpaceRingBuffer rb) Size ∧
      (Slow.WriteRingBuffer rb Data Size).2.ReadIndex = rb.ReadIndex ∧
      (Slow.WriteRingBuffer rb Data Size).2.WriteIndex
          = rb.WriteIndex + min (FreeSpaceRingBuffer rb) Size ∧
      (Slow.WriteRingBuffer rb Data Size).2.Capacity = rb.Capacity ∧
      (Slow.WriteRingBuffer rb Data Size).2.Buffer.length = rb.Buffer.length ∧
      (∀ k, k < rb.Capacity →
        (Slow.WriteRingBuffer rb Data Size).2.Buffer.getD k 0 =
          if wIdx rb.WriteIndex rb.Capacity k
               < min (FreeSpaceRingBuffer rb) Size then
            Data.getD (wIdx rb.WriteIndex rb.Capacity k) 0
          else rb.Buffer.getD k 0) := by
  intro Size
  induction Size with
  | zero =>
      intro rb Data hinv hcap
      have hm : min (FreeSpaceRingBuffer rb) 0 = 0 := Nat.min_zero _
      rw [slow_write_zero_size, hm]
      refine ⟨rfl, rfl, rfl, rfl, rfl, ?_⟩
      intro k hk
      rw [if_neg (by omega)]
  | succ s ih =>
      intro rb Data hinv hcap
      obtain ⟨hrw, hcnt, hlen⟩ := hinv
      have ha : rb.WriteIndex % rb.Capacity < rb.Capacity := Nat.mod_lt _ hcap
      have hfscap : FreeSpaceRingBuffer rb ≤ rb.Capacity := Nat.sub_le _ _
      cases hfull : Slow.IsFullRingBuffer rb with
      | true =>
          have hfs0 : FreeSpaceRingBuffer rb = 0 := by
            unfold Slow.IsFullRingBuffer Slow.FreeSpaceRingBuffer at hfull
            unfold FreeSpaceRingBuffer CountRingBuffer
            simp only [beq_iff_eq] at hfull
            omega
          rw [slow_write_full rb Data s hfull]
          refine ⟨?_, rfl, ?_, rfl, rfl, ?_⟩
          · show (0 : Nat) = min (FreeSpaceRingBuffer rb) (s + 1)
            omega
          · show rb.WriteIndex = rb.WriteIndex + min (FreeSpaceRingBuffer rb) (s + 1)
            omega
          · intro k hk
            rw [if_neg (by omega)]
      | false =>
          have hfs1 : 0 < FreeSpaceRingBuffer rb := by
            unfold Slow.IsFullRingBuffer Slow.FreeSpaceRingBuffer at hfull
            unfold FreeSpaceRingBuffer CountRingBuffer
            simp only [beq_eq_false_iff_ne] at hfull
            omega
          have hcountlt : rb.WriteIndex - rb.ReadIndex < rb.Capacity := by
            unfold FreeSpaceRingBuffer CountRingBuffer at hfs1
            omega
          rw [slow_write_step rb Data s hfull]
          have hinv2 : InvP { rb with
              Buffer := rb.Buffer.set (rb.WriteIndex % rb.Capacity) (Data.headD 0)
              WriteIndex := rb.WriteIndex + 1 } := by
            unfold InvP
            refine ⟨?_, ?_, ?_⟩
            · show rb.ReadIndex ≤ rb.WriteIndex + 1
              omega
            · show rb.WriteIndex + 1 - rb.ReadIndex ≤ rb.Capacity
              omega
            · show (rb.Buffer.set (rb.WriteIndex % rb.Capacity) (Data.headD 0)).length
                  = rb.Capacity
              rw [List.length_set, hlen]
          have ih2 := ih { rb with
              Buffer := rb.Buffer.set (rb.WriteIndex % rb.Capacity) (Data.headD 0)
              WriteIndex := rb.WriteIndex + 1 } Data.tail hinv2 hcap
          have hfs2 : FreeSpaceRingBuffer { rb with
              Buffer := rb.Buffer.set (rb.WriteIndex % rb.Capacity) (Data.headD 0)
              WriteIndex := rb.WriteIndex + 1 }
              = FreeSpaceRingBuffer rb - 1 := by
            show rb.Capacity - (rb.WriteIndex + 1 - rb.ReadIndex)
                = rb.Capacity - (rb.WriteIndex - rb.ReadIndex) - 1
            omega
          rw [hfs2] at ih2
          dsimp only at ih2
          obtain ⟨i1, i2, i3, i4, i5, i6⟩ := ih2
          refine ⟨?_, ?_, ?_, ?_, ?_, ?_⟩
          · show (Slow.WriteRingBuffer _ Data.tail s).1 + 1
                = min (FreeSpaceRingBuffer rb) (s + 1)
            rw [i1]
            omega
          · show (Slow.WriteRingBuffer _ Data.tail s).2.ReadIndex = rb.ReadIndex
            rw [i2]
          · show (Slow.WriteRingBuffer _ Data.tail s).2.WriteIndex
                = rb.WriteIndex + min (FreeSpaceRingBuffer rb) (s + 1)
            rw [i3]
            omega
          · show (Slow.WriteRingBuffer _ Data.tail s).2.Capacity = rb.Capacity
            rw [i4]
          · show (Slow.WriteRingBuffer _ Data.tail s).2.Buffer.length = rb.Buffer.length
            rw [i5, List.length_set]
          · intro k hk
            show (Slow.WriteRingBuffer _ Data.tail s).2.Buffer.getD k 0 = _
            rw [i6 k hk]
            by_cases hka : k = rb.WriteIndex % rb.Capacity
            · obtain ⟨hs1, hs2⟩ := wIdx_succ_eq rb.WriteIndex rb.Capacity k hcap hk hka
              rw [hs1, hs2, if_neg (by omega), if_pos (by omega), getD_set,
                  if_pos ⟨hka.symm, by omega⟩, headD_eq_getD]
            · have hsucc := wIdx_succ_ne rb.WriteIndex rb.Capacity k hcap hk hka
              rw [hsucc]
              by_cases hcond : wIdx (rb.WriteIndex + 1) rb.Capacity k
                                 < min (FreeSpaceRingBuffer rb - 1) s
              · rw [if_pos hcond, if_pos (by omega), tail_getD]
              · rw [if_neg hcond, if_neg (by omega), getD_set,
                    if_neg (fun hcon => hka hcon.1.symm)]

theorem slow_read_zero_size (rb : RB) (Out : List Nat) (off : Nat) :
    Slow.ReadRingBuffer rb Out off 0 = (0, Out, rb) := rfl

theorem slow_read_empty (rb : RB) (Out : List Nat) (off s : Nat)
    (h : Slow.IsEmptyRingBuffer rb = true) :
    Slow.ReadRingBuffer rb Out off (s + 1) = (0, Out, rb) := by
  simp [Slow.ReadRingBuffer, h]

theorem slow_read_step (rb : RB) (Out : List Nat) (off s : Nat)
    (h : Slow.IsEmptyRingBuffer rb = false) :
    Slow.ReadRingBuffer rb Out off (s + 1)
      = ((Slow.ReadRingBuffer { rb with ReadIndex := rb.ReadIndex + 1 }
            (Out.set off (rb.Buffer.getD (rb.ReadIndex % rb.Capacity) 0))
            (off + 1) s).1 + 1,
         (Slow.ReadRingBuffer { rb with ReadIndex := rb.ReadIndex + 1 }
            (Out.set off (rb.Buffer.getD (rb.ReadIndex % rb.Capacity) 0))
            (off + 1) s).2) := by
  simp [Slow.ReadRingBuffer, h]

/-- The slow read loop has exactly the net effect of the fast read: same
count, same cursors, untouched store, and the same delivery into the
caller's buffer (here tracked through the moving offset `off`). -/
theorem slow_read_spec :
    ∀ (Size : Nat) (rb : RB) (Out : List Nat) (off : Nat), InvP rb → 0 < rb.Capacity →
      (Slow.ReadRingBuffer rb Out off Size).1 = min (CountRingBuffer rb) Size ∧
      (Slow.ReadRingBuffer rb Out off Size).2.2.ReadIndex
          = rb.ReadIndex + min (CountRingBuffer rb) Size ∧
      (Slow.ReadRingBuffer rb Out off Size).2.2.WriteIndex = rb.WriteIndex ∧
      (Slow.ReadRingBuffer rb Out off Size).2.2.Capacity = rb.Capacity ∧
      (Slow.ReadRingBuffer rb Out off Size).2.2.Buffer = rb.Buffer ∧
      (Slow.ReadRingBuffer rb Out off Size).2.1.length = Out.length ∧
      (∀ k, (Slow.ReadRingBuffer rb Out off Size).2.1.getD k 0 =
        if off ≤ k ∧ k < off + min (CountRingBuffer rb) Size ∧ k < Out.length then
          rb.Buffer.getD ((rb.ReadIndex + (k - off)) % rb.Capacity) 0
        else Out.getD k 0) := by
  intro Size
  induction Size with
  | zero =>
      intro rb Out off hinv hcap
      have hm : min (CountRingBuffer rb) 0 = 0 := Nat.min_zero _
      rw [slow_read_zero_size, hm]
      refine ⟨rfl, rfl, rfl, rfl, rfl, rfl, ?_⟩
      intro k
      rw [if_neg (by omega)]
  | succ s ih =>
      intro rb Out off hinv hcap
      obtain ⟨hrw, hcnt, hlen⟩ := hinv
      cases hemp : Slow.IsEmptyRingBuffer rb with
      | true =>
          have hc0 : CountRingBuffer rb = 0 := by
            unfold Slow.IsEmptyRingBuffer at hemp
            simp only [beq_iff_eq] at hemp
            exact hemp
          rw [slow_read_empty rb Out off s hemp]
          refine ⟨?_, ?_, rfl, rfl, rfl, rfl, ?_⟩
          · show (0 : Nat) = min (CountRingBuffer rb) (s + 1)
            omega
          · show rb.ReadIndex = rb.ReadIndex + min (CountRingBuffer rb) (s + 1)
            omega
          · intro k
            rw [if_neg (by omega)]
      | false =>
          have hc1 : 0 < CountRingBuffer rb := by
            unfold Slow.IsEmptyRingBuffer at hemp
            simp only [beq_eq_false_iff_ne] at hemp
            omega
          have hcw : rb.ReadIndex < rb.WriteIndex := by
            unfold CountRingBuffer at hc1
            omega
          rw [slow_read_step rb Out off s hemp]
          have hinv2 : InvP { rb with ReadIndex := rb.ReadIndex + 1 } := by
            unfold InvP
            refine ⟨?_, ?_, ?_⟩
            · show rb.ReadIndex + 1 ≤ rb.WriteIndex
              omega
            · show rb.WriteIndex - (rb.ReadIndex + 1) ≤ rb.Capacity
              omega
            · show rb.Buffer.length = rb.Capacity
              exact hlen
          have ih2 := ih { rb with ReadIndex := rb.ReadIndex + 1 }
            (Out.set off (rb.Buffer.getD (rb.ReadIndex % rb.Capacity) 0))
            (off + 1) hinv2 hcap
          have hcnt2 : CountRingBuffer { rb with ReadIndex := rb.ReadIndex + 1 }
              = CountRingBuffer rb - 1 := by
            show rb.WriteIndex - (rb.ReadIndex + 1) = rb.WriteIndex - rb.ReadIndex - 1
            omega
          rw [hcnt2] at ih2
          dsimp only at ih2
          obtain ⟨i1, i2, i3, i4, i5, i6, i7⟩ := ih2
          refine ⟨?_, ?_, ?_, ?_, ?_, ?_, ?_⟩
          · show (Slow.ReadRingBuffer _ _ (off + 1) s).1 + 1
                = min (CountRingBuffer rb) (s + 1)
            rw [i1]
            omega
          · show (Slow.ReadRingBuffer _ _ (off + 1) s).2.2.ReadIndex
                = rb.ReadIndex + min (CountRingBuffer rb) (s + 1)
            rw [i2]
            omega
          · show (Slow.ReadRingBuffer _ _ (off + 1) s).2.2.WriteIndex = rb.WriteIndex
            rw [i3]
          · show (Slow.ReadRingBuffer _ _ (off + 1) s).2.2.Capacity = rb.Capacity
            rw [i4]
          · show (Slow.ReadRingBuffer _ _ (off + 1) s).2.2.Buffer = rb.Buffer
            rw [i5]
          · show (Slow.ReadRingBuffer _ _ (off + 1) s).2.1.length = Out.length
            rw [i6, List.length_set]
          · intro k
            show (Slow.ReadRingBuffer _ _ (off + 1) s).2.1.getD k 0 = _
            rw [i7 k, List.length_set]
            by_cases hko : k = off
            · subst hko
              rw [if_neg (by omega), getD_set]
              by_cases hol2 : k < Out.length
              · rw [if_pos ⟨rfl, hol2⟩, if_pos ⟨le_refl k, by omega, hol2⟩,
                    show rb.ReadIndex + (k - k) = rb.ReadIndex from by omega]
              · rw [if_neg (fun hcon => hol2 hcon.2), if_neg (by omega)]
            · by_cases hklt : k < off
              · rw [if_neg (by omega), getD_set,
                    if_neg (fun hcon => hko hcon.1.symm), if_neg (by omega)]
              · have hkgt : off + 1 ≤ k := by omega
                by_cases hcond : k < off + 1 + min (CountRingBuffer rb - 1) s
                                   ∧ k < Out.length
                · rw [if_pos ⟨hkgt, hcond.1, hcond.2⟩,
                      if_pos ⟨by omega, by omega, hcond.2⟩,
                      show rb.ReadIndex + 1 + (k - (off + 1))
                          = rb.ReadIndex + (k - off) from by omega]
                · rw [if_neg (fun hcon => hcond ⟨hcon.2.1, hcon.2.2⟩),
                      if_neg (by omega), getD_set,
                      if_neg (fun hcon => hko hcon.1.symm)]

/-- C9: slow/fast implementation equivalence.  On every invariant state of
positive capacity, the byte-by-byte slow `WriteRingBuffer` returns the
same count and the same final state as the split-memcpy fast one, and the
slow `ReadRingBuffer` (output pointer starting at offset 0) returns the
same count, the same output buffer, and the same final state as the fast
one. -/
theorem slow_fast_equivalence (rb : RB) (Data Out : List Nat) (Size : Nat)
    (hinv : InvP rb) (hcap : 0 < rb.Capacity) :
    Slow.WriteRingBuffer rb Data Size = WriteRingBuffer rb Data Size ∧
    Slow.ReadRingBuffer rb Out 0 Size = ReadRingBuffer rb Out Size := by
  obtain ⟨hrw, hcnt, hlen⟩ := hinv
  constructor
  · obtain ⟨f1, f2, f3, f4, f5, f6⟩ :=
      write_effect rb Data Size ⟨hrw, hcnt, hlen⟩ hcap
    obtain ⟨s1, s2, s3, s4, s5, s6⟩ :=
      slow_write_spec Size rb Data ⟨hrw, hcnt, hlen⟩ hcap
    have hbuf : (Slow.WriteRingBuffer rb Data Size).2.Buffer
        = (WriteRingBuffer rb Data Size).2.Buffer := by
      apply List.ext_getElem
      · rw [s5, hlen, f5]
      · intro i h1 h2
        have hi : i < rb.Capacity := by
          rw [s5, hlen] at h1
          exact h1
        rw [getElem_eq_getD _ _ h1, getElem_eq_getD _ _ h2, s6 i hi, f6 i hi]
    have hrb : (Slow.WriteRingBuffer rb Data Size).2
        = (WriteRingBuffer rb Data Size).2 :=
      RB.ext2 _ _ (by rw [s2, f2]) (by rw [s3, f3]) hbuf (by rw [s4, f4])
    have hn : (Slow.WriteRingBuffer rb Data Size).1
        = (WriteRingBuffer rb Data Size).1 := by
      rw [s1, f1]
    calc Slow.WriteRingBuffer rb Data Size
        = ((Slow.WriteRingBuffer rb Data Size).1,
           (Slow.WriteRingBuffer rb Data Size).2) := rfl
      _ = ((WriteRingBuffer rb Data Size).1,
           (WriteRingBuffer rb Data Size).2) := by rw [hn, hrb]
      _ = WriteRingBuffer rb Data Size := rfl
  · obtain ⟨g1, g2, g3, g4, g5, g6, g7⟩ :=
      read_effect rb Out Size ⟨hrw, hcnt, hlen⟩ hcap
    obtain ⟨t1, t2, t3, t4, t5, t6, t7⟩ :=
      slow_read_spec Size rb Out 0 ⟨hrw, hcnt, hlen⟩ hcap
    have hout : (Slow.ReadRingBuffer rb Out 0 Size).2.1
        = (ReadRingBuffer rb Out Size).2.1 := by
      apply List.ext_getElem
      · rw [t6, g6]
      · intro i h1 h2
        rw [getElem_eq_getD _ _ h1, getElem_eq_getD _ _ h2, t7 i, g7 i]
        by_cases hc2 : i < min (CountRingBuffer rb) Size ∧ i < Out.length
        · rw [if_pos ⟨Nat.zero_le i, by omega, hc2.2⟩, if_pos hc2, Nat.sub_zero]
        · rw [if_neg (by omega), if_neg hc2]
    have hrb2 : (Slow.ReadRingBuffer rb Out 0 Size).2.2
        = (ReadRingBuffer rb Out Size).2.2 :=
      RB.ext2 _ _ (by rw [t2, g2]) (by rw [t3, g3]) (by rw [t5, g5]) (by rw [t4, g4])
    have hn2 : (Slow.ReadRingBuffer rb Out 0 Size).1
        = (ReadRingBuffer rb Out Size).1 := by
      rw [t1, g1]
    calc Slow.ReadRingBuffer rb Out 0 Size
        = ((Slow.ReadRingBuffer rb Out 0 Size).1,
           (Slow.ReadRingBuffer rb Out 0 Size).2.1,
           (Slow.ReadRingBuffer rb Out 0 Size).2.2) := rfl
      _ = ((ReadRingBuffer rb Out Size).1,
           (ReadRingBuffer rb Out Size).2.1,
           (ReadRingBuffer rb Out Size).2.2) := by rw [hn2, hout, hrb2]
      _ = ReadRingBuffer rb Out Size := rfl

/-- Witness for `slow_fast_equivalence`: a 3-byte buffer holding 2 bytes,
written and read with both implementations. -/
theorem slow_fast_equivalence_witness :
    InvP (⟨1, 3, [10, 20, 30], 3⟩ : RB) ∧
    0 < (⟨1, 3, [10, 20, 30], 3⟩ : RB).Capacity ∧
    Slow.WriteRingBuffer (⟨1, 3, [10, 20, 30], 3⟩ : RB) [7, 8] 2
      = WriteRingBuffer (⟨1, 3, [10, 20, 30], 3⟩ : RB) [7, 8] 2 ∧
    Slow.ReadRingBuffer (⟨1, 3, [10, 20, 30], 3⟩ : RB) [0, 0] 0 2
      = ReadRingBuffer (⟨1, 3, [10, 20, 30], 3⟩ : RB) [0, 0] 2 :=
  ⟨by decide, by decide,
   (slow_fast_equivalence (⟨1, 3, [10, 20, 30], 3⟩ : RB) [7, 8] [0, 0] 2
      (by decide) (by decide)).1,
   (slow_fast_equivalence (⟨1, 3, [10, 20, 30], 3⟩ : RB) [7, 8] [0, 0] 2
      (by decide) (by decide)).2⟩

/-! ## Client operation traces -/

/-- One client operation.  A bulk read of `size` is issued with a fresh
scratch buffer of `size` zero bytes, as the drivers in `main` do. -/
inductive RBOp where
  | write (data : List Nat) (size : Nat)
  | read (size : Nat)
  | writeByte (b : Nat)
  | readByte
deriving Repr, DecidableEq

/-- Buffer state after one operation. -/
def applyOp (rb : RB) : RBOp → RB
  | .write d s => (WriteRingBuffer rb d s).2
  | .read s => (ReadRingBuffer rb (List.replicate s 0) s).2.2
  | .writeByte b => (WriteByteRingBuffer rb b).2
  | .readByte => (ReadByteRingBuffer rb 0).2.2

/-- The observable result of one operation: the byte count it returns and
the bytes it delivers to the caller (empty for writes; for `ReadByte` the
single byte when the read succeeded). -/
def opResult (rb : RB) : RBOp → Nat × List Nat
  | .write d s => ((WriteRingBuffer rb d s).1, [])
  | .read s =>
      ((ReadRingBuffer rb (List.replicate s 0) s).1,
       ((ReadRingBuffer rb (List.replicate s 0) s).2.1).take
         (ReadRingBuffer rb (List.replicate s 0) s).1)
  | .writeByte b => ((WriteByteRingBuffer rb b).1, [])
  | .readByte =>
      ((ReadByteRingBuffer rb 0).1,
       if (ReadByteRingBuffer rb 0).1 = 1 then [(ReadByteRingBuffer rb 0).2.1] else [])

/-- The bytes an operation supplies for writing (`data`, up to `size`). -/
def opInput : RBOp → List Nat
  | .write d s => d.take s
  | .writeByte b => [b]
  | _ => []

def runOps (rb : RB) : List RBOp → RB
  | [] => rb
  | op :: rest => runOps (applyOp rb op) rest

/-- Bytes delivered by the reads of a trace, in order. -/
def readsOf (rb : RB) : List RBOp → List Nat
  | [] => []
  | op :: rest => (opResult rb op).2 ++ readsOf (applyOp rb op) rest

/-- Bytes supplied to the writes of a trace, in order. -/
def writesOf : List RBOp → List Nat
  | [] => []
  | op :: rest => opInput op ++ writesOf rest

/-- A single operation is within claim C1's no-overflow discipline:
writes never ask for more than the current free space (and supply at
least `size` bytes of data). -/
def opOk (rb : RB) : RBOp → Bool
  | .write d s => decide (s ≤ FreeSpaceRingBuffer rb) && decide (s ≤ d.length)
  | .writeByte _ => decide (CountRingBuffer rb < rb.Capacity)
  | _ => true

def noOverflow (rb : RB) : List RBOp → Bool
  | [] => true
  | op :: rest => opOk rb op && noOverflow (applyOp rb op) rest

theorem initRB_eq (cap : Nat) : initRB cap = ⟨0, 0, List.replicate cap 0, cap⟩ := by
  unfold initRB InitializeRingBuffer
  rcases Nat.eq_zero_or_pos cap with h | h
  · subst h
    simp
  · simp [h]

theorem initRB_inv (cap : Nat) : InvP (initRB cap) := by
  rw [initRB_eq]
  unfold InvP
  refine ⟨Nat.le_refl 0, by simp, by simp⟩

theorem contents_nil (rb : RB) (h : CountRingBuffer rb = 0) : contents rb = [] := by
  unfold contents
  rw [h]
  rfl

/-- Every operation preserves the cursor invariant. -/
theorem applyOp_inv (rb : RB) (op : RBOp) (hinv : InvP rb) : InvP (applyOp rb op) := by
  obtain ⟨hrw, hcnt, hlen⟩ := hinv
  cases op with
  | write d s =>
      show InvP (WriteRingBuffer rb d s).2
      rcases Nat.eq_zero_or_pos rb.Capacity with hc | hc
      · rw [show WriteRingBuffer rb d s = (0, rb) from by simp [WriteRingBuffer, hc]]
        exact ⟨hrw, hcnt, hlen⟩
      · obtain ⟨f1, f2, f3, f4, f5, f6⟩ := write_effect rb d s ⟨hrw, hcnt, hlen⟩ hc
        have hT : min (FreeSpaceRingBuffer rb) s ≤ FreeSpaceRingBuffer rb :=
          Nat.min_le_left _ _
        have hfs : FreeSpaceRingBuffer rb
            = rb.Capacity - (rb.WriteIndex - rb.ReadIndex) := rfl
        refine ⟨?_, ?_, ?_⟩
        · rw [f2, f3]
          omega
        · rw [f2, f3, f4]
          omega
        · rw [f5, f4]
  | read s =>
      show InvP (ReadRingBuffer rb (List.replicate s 0) s).2.2
      rcases Nat.eq_zero_or_pos rb.Capacity with hc | hc
      · rw [show ReadRingBuffer rb (List.replicate s 0) s
              = (0, List.replicate s 0, rb) from by simp [ReadRingBuffer, hc]]
        exact ⟨hrw, hcnt, hlen⟩
      · obtain ⟨g1, g2, g3, g4, g5, g6, g7⟩ :=
          read_effect rb (List.replicate s 0) s ⟨hrw, hcnt, hlen⟩ hc
        have hT : min (CountRingBuffer rb) s ≤ CountRingBuffer rb :=
          Nat.min_le_left _ _
        have hcc : CountRingBuffer rb = rb.WriteIndex - rb.ReadIndex := rfl
        refine ⟨?_, ?_, ?_⟩
        · rw [g2, g3]
          omega
        · rw [g2, g3, g4]
          omega
        · rw [g5, g4]
          exact hlen
  | writeByte b =>
      show InvP (WriteByteRingBuffer rb b).2
      by_cases h : CountRingBuffer rb = rb.Capacity
      · rw [writeByte_full rb b h]
        exact ⟨hrw, hcnt, hlen⟩
      · rw [writeByte_not_full rb b h]
        have hcc : CountRingBuffer rb = rb.WriteIndex - rb.ReadIndex := rfl
        unfold InvP
        refine ⟨?_, ?_, ?_⟩
        · show rb.ReadIndex ≤ rb.WriteIndex + 1
          omega
        · show rb.WriteIndex + 1 - rb.ReadIndex ≤ rb.Capacity
          omega
        · show (rb.Buffer.set (rb.WriteIndex % rb.Capacity) b).length = rb.Capacity
          rw [List.length_set]
          exact hlen
  | readByte =>
      show InvP (ReadByteRingBuffer rb 0).2.2
      by_cases h : CountRingBuffer rb = 0
      · rw [readByte_empty rb 0 h]
        exact ⟨hrw, hcnt, hlen⟩
      · rw [readByte_not_empty rb 0 h]
        have hcc : CountRingBuffer rb = rb.WriteIndex - rb.ReadIndex := rfl
        unfold InvP
        refine ⟨?_, ?_, ?_⟩
        · show rb.ReadIndex + 1 ≤ rb.WriteIndex
          omega
        · show rb.WriteIndex - (rb.ReadIndex + 1) ≤ rb.Capacity
          omega
        · show rb.Buffer.length = rb.Capacity
          exact hlen

/-! ## Byte operations as size-one bulk operations -/

theorem writeByte_as_write (rb : RB) (b : Nat) (h : CountRingBuffer rb < rb.Capacity) :
    (WriteByteRingBuffer rb b).2 = (WriteRingBuffer rb [b] 1).2 := by
  have hcap : 0 < rb.Capacity := by omega
  have ha : rb.WriteIndex % rb.Capacity < rb.Capacity := Nat.mod_lt _ hcap
  have hfs : 0 < FreeSpaceRingBuffer rb := by
    unfold FreeSpaceRingBuffer
    omega
  have hm : min (FreeSpaceRingBuffer rb) 1 = 1 := by omega
  rw [writeByte_not_full rb b (by omega),
      WriteRingBuffer_nosplit rb [b] 1 (by omega) (by omega) (by omega), hm]
  rfl

theorem readByte_as_read (rb : RB) (h : CountRingBuffer rb ≠ 0) (hinv : InvP rb) :
    (ReadByteRingBuffer rb 0).2.2 = (ReadRingBuffer rb [0] 1).2.2 := by
  obtain ⟨hrw, hcnt, hlen⟩ := hinv
  have hcpos : 0 < CountRingBuffer rb := Nat.pos_of_ne_zero h
  have hcap : 0 < rb.Capacity := by
    unfold CountRingBuffer at hcpos
    omega
  have hr : rb.ReadIndex % rb.Capacity < rb.Capacity := Nat.mod_lt _ hcap
  have hm : min (CountRingBuffer rb) 1 = 1 := by omega
  rw [readByte_not_empty rb 0 h,
      ReadRingBuffer_nosplit rb [0] 1 (by omega) (by omega) (by omega), hm]

theorem take_one_getD (l : List Nat) (h : l ≠ []) : l.take 1 = [l.getD 0 0] := by
  cases l with
  | nil => exact absurd rfl h
  | cons x xs => rfl

/-- How one allowed operation exchanges bytes with the abstract FIFO
content: what it delivers, prepended to the new content, equals the old
content followed by what it supplied. -/
theorem op_exchange (rb : RB) (op : RBOp) (hinv : InvP rb) (hok : opOk rb op = true) :
    (opResult rb op).2 ++ contents (applyOp rb op) = contents rb ++ opInput op := by
  obtain ⟨hrw, hcnt, hlen⟩ := hinv
  cases op with
  | write d s =>
      unfold opOk at hok
      simp only [Bool.and_eq_true, decide_eq_true_eq] at hok
      obtain ⟨h1, h2⟩ := hok
      show [] ++ contents (WriteRingBuffer rb d s).2 = contents rb ++ d.take s
      rw [List.nil_append, contents_write rb d s ⟨hrw, hcnt, hlen⟩ h2,
          show min (FreeSpaceRingBuffer rb) s = s from by omega]
  | writeByte b =>
      unfold opOk at hok
      simp only [decide_eq_true_eq] at hok
      show [] ++ contents (WriteByteRingBuffer rb b).2 = contents rb ++ [b]
      rw [List.nil_append, writeByte_as_write rb b hok,
          contents_write rb [b] 1 ⟨hrw, hcnt, hlen⟩ (by simp),
          show min (FreeSpaceRingBuffer rb) 1 = 1 from by
            have hfs : 0 < FreeSpaceRingBuffer rb := by
              unfold FreeSpaceRingBuffer
              omega
            omega]
      rfl
  | read s =>
      show ((ReadRingBuffer rb (List.replicate s 0) s).2.1).take
             (ReadRingBuffer rb (List.replicate s 0) s).1
           ++ contents (ReadRingBuffer rb (List.replicate s 0) s).2.2
           = contents rb ++ []
      rcases Nat.eq_zero_or_pos rb.Capacity with hc | hc
      · rw [show ReadRingBuffer rb (List.replicate s 0) s
              = (0, List.replicate s 0, rb) from by simp [ReadRingBuffer, hc]]
        simp
      · obtain ⟨g1, g2, g3, g4, g5, g6, g7⟩ :=
          read_effect rb (List.replicate s 0) s ⟨hrw, hcnt, hlen⟩ hc
        rw [g1, read_delivered rb (List.replicate s 0) s ⟨hrw, hcnt, hlen⟩
              (by rw [List.length_replicate]),
            contents_read rb (List.replicate s 0) s ⟨hrw, hcnt, hlen⟩,
            List.take_append_drop, List.append_nil]
  | readByte =>
      show (if (ReadByteRingBuffer rb 0).1 = 1
            then [(ReadByteRingBuffer rb 0).2.1] else [])
           ++ contents (ReadByteRingBuffer rb 0).2.2
           = contents rb ++ []
      rw [List.append_nil]
      by_cases h : CountRingBuffer rb = 0
      · rw [readByte_empty rb 0 h]
        simp [contents_nil rb h]
      · have hcpos : 0 < CountRingBuffer rb := Nat.pos_of_ne_zero h
        have hm : min (CountRingBuffer rb) 1 = 1 := by omega
        have hne : contents rb ≠ [] := by
          intro hcon
          have hl := contents_length rb
          rw [hcon] at hl
          simp at hl
          omega
        rw [readByte_as_read rb h ⟨hrw, hcnt, hlen⟩,
            contents_read rb [0] 1 ⟨hrw, hcnt, hlen⟩, hm]
        have h1 : (ReadByteRingBuffer rb 0).1 = 1 := by
          rw [readByte_not_empty rb 0 h]
        have h2 : (ReadByteRingBuffer rb 0).2.1
            = rb.Buffer.getD (rb.ReadIndex % rb.Capacity) 0 := by
          rw [readByte_not_empty rb 0 h]
        rw [if_pos h1, h2]
        have hx : (contents rb).getD 0 0
            = rb.Buffer.getD (rb.ReadIndex % rb.Capacity) 0 := by
          rw [List.getD_eq_getElem _ _ (by rw [contents_length]; omega),
              contents_getElem, Nat.add_zero]
        conv_rhs => rw [← List.take_append_drop 1 (contents rb)]
        rw [take_one_getD (contents rb) hne, hx]

/-- Conservation along a whole trace: old content plus all supplied bytes
equals all delivered bytes plus the final content. -/
theorem conserve_run :
    ∀ (ops : List RBOp) (rb : RB), InvP rb → noOverflow rb ops = true →
      contents rb ++ writesOf ops = readsOf rb ops ++ contents (runOps rb ops) := by
  intro ops
  induction ops with
  | nil =>
      intro rb hinv hok
      show contents rb ++ [] = [] ++ contents rb
      rw [List.append_nil, List.nil_append]
  | cons op rest ih =>
      intro rb hinv hok
      rw [noOverflow, Bool.and_eq_true] at hok
      obtain ⟨hok1, hok2⟩ := hok
      have hstep := op_exchange rb op hinv hok1
      have ihh := ih (applyOp rb op) (applyOp_inv rb op hinv) hok2
      show contents rb ++ (opInput op ++ writesOf rest)
          = ((opResult rb op).2 ++ readsOf (applyOp rb op) rest)
            ++ contents (runOps (applyOp rb op) rest)
      calc contents rb ++ (opInput op ++ writesOf rest)
          = (contents rb ++ opInput op) ++ writesOf rest :=
            (List.append_assoc _ _ _).symm
        _ = ((opResult rb op).2 ++ contents (applyOp rb op)) ++ writesOf rest := by
            rw [hstep]
        _ = (opResult rb op).2 ++ (contents (applyOp rb op) ++ writesOf rest) :=
            List.append_assoc _ _ _
        _ = (opResult rb op).2
              ++ (readsOf (applyOp rb op) rest
                  ++ contents (runOps (applyOp rb op) rest)) := by
            rw [ihh]
        _ = ((opResult rb op).2 ++ readsOf (applyOp rb op) rest)
              ++ contents (runOps (applyOp rb op) rest) :=
            (List.append_assoc _ _ _).symm

/-- C1: FIFO conservation.  Starting from a freshly initialized buffer of
positive capacity, for any operation sequence in which no write ever asks
for more bytes than the current free space, the bytes supplied to the
writes equal the bytes returned by the reads followed by the bytes still
buffered — so reads deliver exactly the written bytes, byte for byte and
in order; in particular when the buffer ends empty the two byte sequences
are equal. -/
theorem fifo_conservation (cap : Nat) (ops : List RBOp) (_hcap : 0 < cap)
    (hok : noOverflow (initRB cap) ops = true) :
    writesOf ops
      = readsOf (initRB cap) ops ++ contents (runOps (initRB cap) ops) ∧
    (CountRingBuffer (runOps (initRB cap) ops) = 0 →
      readsOf (initRB cap) ops = writesOf ops) := by
  have h0 : contents (initRB cap) = [] := by
    apply contents_nil
    rw [initRB_eq]
    rfl
  have hmain := conserve_run ops (initRB cap) (initRB_inv cap) hok
  rw [h0, List.nil_append] at hmain
  refine ⟨hmain, ?_⟩
  intro hempty
  rw [hmain, contents_nil _ hempty, List.append_nil]

/-- Witness for `fifo_conservation`: write 5, 6 then read both back on a
capacity-2 buffer. -/
theorem fifo_conservation_witness :
    0 < 2 ∧
    noOverflow (initRB 2) [RBOp.write [5, 6] 2, RBOp.read 2] = true ∧
    writesOf [RBOp.write [5, 6] 2, RBOp.read 2]
      = readsOf (initRB 2) [RBOp.write [5, 6] 2, RBOp.read 2]
        ++ contents (runOps (initRB 2) [RBOp.write [5, 6] 2, RBOp.read 2]) :=
  ⟨by decide, by decide,
   (fifo_conservation 2 [RBOp.write [5, 6] 2, RBOp.read 2]
      (by decide) (by decide)).1⟩

/-- C2: occupancy invariant.  For every state reachable from a freshly
initialized buffer by any operation sequence, the occupancy is between 0
and the capacity and occupancy plus free space equals the capacity
(occupancy is non-negative by construction, being a `Nat`); moreover every
single operation preserves the cursor invariant `InvP` on any state
satisfying it. -/
theorem occupancy_invariant :
    (∀ (cap : Nat) (ops : List RBOp),
      CountRingBuffer (runOps (initRB cap) ops)
          ≤ (runOps (initRB cap) ops).Capacity ∧
      CountRingBuffer (runOps (initRB cap) ops)
          + FreeSpaceRingBuffer (runOps (initRB cap) ops)
          = (runOps (initRB cap) ops).Capacity) ∧
    (∀ (rb : RB) (op : RBOp), InvP rb → InvP (applyOp rb op)) := by
  have hrun : ∀ (ops : List RBOp) (rb : RB), InvP rb → InvP (runOps rb ops) := by
    intro ops
    induction ops with
    | nil => exact fun rb h => h
    | cons op rest ih => exact fun rb h => ih _ (applyOp_inv rb op h)
  constructor
  · intro cap ops
    obtain ⟨h1, h2, h3⟩ := hrun ops (initRB cap) (initRB_inv cap)
    constructor
    · exact h2
    · show CountRingBuffer _ + FreeSpaceRingBuffer _ = _
      unfold FreeSpaceRingBuffer CountRingBuffer
      omega
  · exact fun rb op h => applyOp_inv rb op h

/-- Witness for `occupancy_invariant`: preservation applied to a concrete
state and a concrete operation. -/
theorem occupancy_invariant_witness :
    InvP (⟨0, 1, [5, 0], 2⟩ : RB) ∧
    InvP (applyOp (⟨0, 1, [5, 0], 2⟩ : RB) (RBOp.writeByte 9)) :=
  ⟨by decide,
   occupancy_invariant.2 (⟨0, 1, [5, 0], 2⟩ : RB) (RBOp.writeByte 9) (by decide)⟩

/-! ## The unbounded (never-wrapping) reference FIFO -/

/-- Modelled from the spec: the unbounded reference buffer of §8
"Wraparound correctness" — an equivalent non-wrapping buffer whose
backing stream never wraps, holding the buffered bytes as a plain queue
with no modular indexing; writes append the accepted
`min(size, capacity − occupancy)` bytes, reads remove and deliver the
first `min(size, occupancy)` bytes. -/
structure SpecBuffer where
  queue : List Nat
  cap : Nat
deriving Repr, DecidableEq

namespace Spec

def write (sb : SpecBuffer) (d : List Nat) (s : Nat) : Nat × SpecBuffer :=
  let t := min (sb.cap - sb.queue.length) s
  (t, { sb with queue := sb.queue ++ d.take t })

def read (sb : SpecBuffer) (s : Nat) : Nat × List Nat × SpecBuffer :=
  let t := min sb.queue.length s
  (t, sb.queue.take t, { sb with queue := sb.queue.drop t })

def writeByte (sb : SpecBuffer) (b : Nat) : Nat × SpecBuffer :=
  if sb.queue.length = sb.cap then (0, sb)
  else (1, { sb with queue := sb.queue ++ [b] })

def readByte (sb : SpecBuffer) : Nat × List Nat × SpecBuffer :=
  if sb.queue.length = 0 then (0, [], sb)
  else (1, sb.queue.take 1, { sb with queue := sb.queue.drop 1 })

def applyOp (sb : SpecBuffer) : RBOp → SpecBuffer
  | .write d s => (write sb d s).2
  | .read s => (read sb s).2.2
  | .writeByte b => (writeByte sb b).2
  | .readByte => (readByte sb).2.2

def opResult (sb : SpecBuffer) : RBOp → Nat × List Nat
  | .write d s => ((write sb d s).1, [])
  | .read s => ((read sb s).1, (read sb s).2.1)
  | .writeByte b => ((writeByte sb b).1, [])
  | .readByte => ((readByte sb).1, (readByte sb).2.1)

def traceOf (sb : SpecBuffer) : List RBOp → List (Nat × List Nat)
  | [] => []
  | op :: rest => opResult sb op :: traceOf (applyOp sb op) rest

end Spec

/-- The observable trace of the implementation: per operation, the count
returned and the bytes delivered. -/
def traceOf (rb : RB) : List RBOp → List (Nat × List Nat)
  | [] => []
  | op :: rest => opResult rb op :: traceOf (applyOp rb op) rest

/-- A single well-formed operation: a bulk write supplies at least `size`
bytes of data (the C caller's obligation). -/
def opWf : RBOp → Bool
  | RBOp.write d s => decide (s ≤ d.length)
  | _ => true

/-- Well-formed traces: every operation is well-formed. -/
def wfOps : List RBOp → Bool
  | [] => true
  | op :: rest => opWf op && wfOps rest

/-- One-step simulation: when the abstract content of the implementation
state equals the reference queue (and the capacities agree), a well-formed
operation returns the same count, delivers the same bytes, and
re-establishes the correspondence. -/
theorem sim_step (rb : RB) (sb : SpecBuffer) (op : RBOp)
    (hinv : InvP rb) (hq : contents rb = sb.queue) (hc : rb.Capacity = sb.cap)
    (hwf : opWf op = true) :
    opResult rb op = Spec.opResult sb op ∧
    contents (applyOp rb op) = (Spec.applyOp sb op).queue ∧
    (applyOp rb op).Capacity = (Spec.applyOp sb op).cap := by
  obtain ⟨hrw, hcnt, hlen⟩ := hinv
  have hql : sb.queue.length = CountRingBuffer rb := by
    rw [← hq, contents_length]
  cases op with
  | write d s =>
      unfold opWf at hwf
      simp only [decide_eq_true_eq] at hwf
      have hspec : Spec.write sb d s
          = (min (sb.cap - sb.queue.length) s,
             { sb with
                 queue := sb.queue ++ d.take (min (sb.cap - sb.queue.length) s) }) := rfl
      rcases Nat.eq_zero_or_pos rb.Capacity with hc0 | hc0
      · have hz : WriteRingBuffer rb d s = (0, rb) := by
          simp [WriteRingBuffer, hc0]
        have hcnt0 : CountRingBuffer rb = 0 := by
          unfold CountRingBuffer
          omega
        have ht : min (sb.cap - sb.queue.length) s = 0 := by
          rw [hql, hcnt0, ← hc, hc0]
          simp
        refine ⟨?_, ?_, ?_⟩
        · show ((WriteRingBuffer rb d s).1, ([] : List Nat))
              = ((Spec.write sb d s).1, [])
          rw [hz, hspec, ht]
        · show contents (WriteRingBuffer rb d s).2 = (Spec.write sb d s).2.queue
          rw [hz, hspec, ht, hq]
          show sb.queue = sb.queue ++ d.take 0
          simp
        · show (WriteRingBuffer rb d s).2.Capacity = sb.cap
          rw [hz]
          exact hc
      · obtain ⟨f1, f2, f3, f4, f5, f6⟩ := write_effect rb d s ⟨hrw, hcnt, hlen⟩ hc0
        have hfs : FreeSpaceRingBuffer rb = sb.cap - sb.queue.length := by
          rw [hql, ← hc]
          rfl
        refine ⟨?_, ?_, ?_⟩
        · show ((WriteRingBuffer rb d s).1, ([] : List Nat))
              = ((Spec.write sb d s).1, [])
          rw [f1, hspec, hfs]
        · show contents (WriteRingBuffer rb d s).2 = (Spec.write sb d s).2.queue
          rw [contents_write rb d s ⟨hrw, hcnt, hlen⟩ hwf, hspec, hq, hfs]
        · show (WriteRingBuffer rb d s).2.Capacity = sb.cap
          rw [f4]
          exact hc
  | read s =>
      have hspec : Spec.read sb s
          = (min sb.queue.length s, sb.queue.take (min sb.queue.length s),
             { sb with queue := sb.queue.drop (min sb.queue.length s) }) := rfl
      rcases Nat.eq_zero_or_pos rb.Capacity with hc0 | hc0
      · have hz : ReadRingBuffer rb (List.replicate s 0) s
            = (0, List.replicate s 0, rb) := by
          simp [ReadRingBuffer, hc0]
        have hcnt0 : CountRingBuffer rb = 0 := by
          unfold CountRingBuffer
          omega
        have ht : min sb.queue.length s = 0 := by
          rw [hql, hcnt0]
          simp
        refine ⟨?_, ?_, ?_⟩
        · show ((ReadRingBuffer rb (List.replicate s 0) s).1,
                ((ReadRingBuffer rb (List.replicate s 0) s).2.1).take
                  (ReadRingBuffer rb (List.replicate s 0) s).1)
              = ((Spec.read sb s).1, (Spec.read sb s).2.1)
          rw [hz, hspec, ht]
          rfl
        · show contents (ReadRingBuffer rb (List.replicate s 0) s).2.2
              = (Spec.read sb s).2.2.queue
          rw [hz, hspec, ht, hq]
          rfl
        · show (ReadRingBuffer rb (List.replicate s 0) s).2.2.Capacity = sb.cap
          rw [hz]
          exact hc
      · obtain ⟨g1, g2, g3, g4, g5, g6, g7⟩ :=
          read_effect rb (List.replicate s 0) s ⟨hrw, hcnt, hlen⟩ hc0
        have hm : min sb.queue.length s = min (CountRingBuffer rb) s := by
          rw [hql]
        refine ⟨?_, ?_, ?_⟩
        · show ((ReadRingBuffer rb (List.replicate s 0) s).1,
                ((ReadRingBuffer rb (List.replicate s 0) s).2.1).take
                  (ReadRingBuffer rb (List.replicate s 0) s).1)
              = ((Spec.read sb s).1, (Spec.read sb s).2.1)
          rw [g1, read_delivered rb (List.replicate s 0) s ⟨hrw, hcnt, hlen⟩
                (by rw [List.length_replicate]),
              hspec, hm, hq]
        · show contents (ReadRingBuffer rb (List.replicate s 0) s).2.2
              = (Spec.read sb s).2.2.queue
          rw [contents_read rb (List.replicate s 0) s ⟨hrw, hcnt, hlen⟩,
              hspec, hm, hq]
        · show (ReadRingBuffer rb (List.replicate s 0) s).2.2.Capacity = sb.cap
          rw [g4]
          exact hc
  | writeByte b =>
      by_cases hfull : CountRingBuffer rb = rb.Capacity
      · have hsfull : sb.queue.length = sb.cap := by
          rw [hql, ← hc]
          exact hfull
        have hspec : Spec.writeByte sb b = (0, sb) := by
          unfold Spec.writeByte
          rw [if_pos hsfull]
        refine ⟨?_, ?_, ?_⟩
        · show ((WriteByteRingBuffer rb b).1, ([] : List Nat))
              = ((Spec.writeByte sb b).1, [])
          rw [writeByte_full rb b hfull, hspec]
        · show contents (WriteByteRingBuffer rb b).2 = (Spec.writeByte sb b).2.queue
          rw [writeByte_full rb b hfull, hspec, hq]
        · show (WriteByteRingBuffer rb b).2.Capacity = (Spec.writeByte sb b).2.cap
          rw [writeByte_full rb b hfull, hspec]
          exact hc
      · have hsfull : ¬ sb.queue.length = sb.cap := by
          rw [hql, ← hc]
          exact hfull
        have hspec : Spec.writeByte sb b
            = (1, { sb with queue := sb.queue ++ [b] }) := by
          unfold Spec.writeByte
          rw [if_neg hsfull]
        have hlt : CountRingBuffer rb < rb.Capacity := by
          have h1 : CountRingBuffer rb = rb.WriteIndex - rb.ReadIndex := rfl
          omega
        have hfs1 : 0 < FreeSpaceRingBuffer rb := by
          have h1 : CountRingBuffer rb = rb.WriteIndex - rb.ReadIndex := rfl
          have h2 : FreeSpaceRingBuffer rb = rb.Capacity - CountRingBuffer rb := rfl
          omega
        refine ⟨?_, ?_, ?_⟩
        · show ((WriteByteRingBuffer rb b).1, ([] : List Nat))
              = ((Spec.writeByte sb b).1, [])
          rw [writeByte_not_full rb b hfull, hspec]
        · show contents (WriteByteRingBuffer rb b).2 = (Spec.writeByte sb b).2.queue
          rw [writeByte_as_write rb b hlt,
              contents_write rb [b] 1 ⟨hrw, hcnt, hlen⟩ (by simp),
              show min (FreeSpaceRingBuffer rb) 1 = 1 from by omega, hspec, hq]
          rfl
        · show (WriteByteRingBuffer rb b).2.Capacity = (Spec.writeByte sb b).2.cap
          rw [writeByte_not_full rb b hfull, hspec]
          exact hc
  | readByte =>
      by_cases hempty : CountRingBuffer rb = 0
      · have hsq : sb.queue.length = 0 := by
          rw [hql]
          exact hempty
        have hspec : Spec.readByte sb = (0, [], sb) := by
          unfold Spec.readByte
          rw [if_pos hsq]
        have hz := readByte_empty rb 0 hempty
        refine ⟨?_, ?_, ?_⟩
        · show ((ReadByteRingBuffer rb 0).1,
                if (ReadByteRingBuffer rb 0).1 = 1
                then [(ReadByteRingBuffer rb 0).2.1] else [])
              = ((Spec.readByte sb).1, (Spec.readByte sb).2.1)
          rw [hz, hspec]
          rfl
        · show contents (ReadByteRingBuffer rb 0).2.2 = (Spec.readByte sb).2.2.queue
          rw [hz, hspec, hq]
        · show (ReadByteRingBuffer rb 0).2.2.Capacity = (Spec.readByte sb).2.2.cap
          rw [hz, hspec]
          exact hc
      · have hcpos : 0 < CountRingBuffer rb := Nat.pos_of_ne_zero hempty
        have hsq : ¬ sb.queue.length = 0 := by
          rw [hql]
          omega
        have hqne : sb.queue ≠ [] := by
          intro hcon
          rw [hcon] at hsq
          exact hsq rfl
        have hspec : Spec.readByte sb
            = (1, sb.queue.take 1, { sb with queue := sb.queue.drop 1 }) := by
          unfold Spec.readByte
          rw [if_neg hsq]
        have hm : min (CountRingBuffer rb) 1 = 1 := by omega
        have hz := readByte_not_empty rb 0 hempty
        have hx : rb.Buffer.getD (rb.ReadIndex % rb.Capacity) 0 = sb.queue.getD 0 0 := by
          rw [← hq, List.getD_eq_getElem (contents rb) 0
                (by rw [contents_length]; omega),
              contents_getElem, Nat.add_zero]
        refine ⟨?_, ?_, ?_⟩
        · show ((ReadByteRingBuffer rb 0).1,
                if (ReadByteRingBuffer rb 0).1 = 1
                then [(ReadByteRingBuffer rb 0).2.1] else [])
              = ((Spec.readByte sb).1, (Spec.readByte sb).2.1)
          rw [hz, hspec, take_one_getD sb.queue hqne, if_pos rfl, hx]
        · show contents (ReadByteRingBuffer rb 0).2.2 = (Spec.readByte sb).2.2.queue
          rw [readByte_as_read rb hempty ⟨hrw, hcnt, hlen⟩,
              contents_read rb [0] 1 ⟨hrw, hcnt, hlen⟩, hm, hspec, hq]
        · show (ReadByteRingBuffer rb 0).2.2.Capacity = (Spec.readByte sb).2.2.cap
          rw [hz, hspec]
          exact hc

/-- Trace-level simulation: from corresponding states, the implementation
and the unbounded reference model produce identical observable traces. -/
theorem sim_run :
    ∀ (ops : List RBOp) (rb : RB) (sb : SpecBuffer), InvP rb →
      contents rb = sb.queue → rb.Capacity = sb.cap → wfOps ops = true →
      traceOf rb ops = Spec.traceOf sb ops := by
  intro ops
  induction ops with
  | nil => intro rb sb _ _ _ _; rfl
  | cons op rest ih =>
      intro rb sb hinv hq hc hwf
      rw [wfOps, Bool.and_eq_true] at hwf
      obtain ⟨hwf1, hwf2⟩ := hwf
      obtain ⟨hres, hq2, hc2⟩ := sim_step rb sb op hinv hq hc hwf1
      show opResult rb op :: traceOf (applyOp rb op) rest
          = Spec.opResult sb op :: Spec.traceOf (Spec.applyOp sb op) rest
      rw [hres,
          ih (applyOp rb op) (Spec.applyOp sb op) (applyOp_inv rb op hinv) hq2 hc2 hwf2]

/-- C4: wraparound correctness.  For every capacity and every well-formed
operation sequence — in particular the write-then-read patterns whose
copies straddle the end of the backing store — the modular-indexed
implementation returns, operation by operation, the same counts and the
same bytes as the unbounded never-wrapping reference FIFO: the
implementation refines the unbounded-stream model. -/
theorem wraparound_refines_unbounded (cap : Nat) (ops : List RBOp)
    (hwf : wfOps ops = true) :
    traceOf (initRB cap) ops = Spec.traceOf ⟨[], cap⟩ ops := by
  refine sim_run ops (initRB cap) ⟨[], cap⟩ (initRB_inv cap) ?_ ?_ hwf
  · apply contents_nil
    rw [initRB_eq]
    rfl
  · rw [initRB_eq]

/-- Witness for `wraparound_refines_unbounded`: on a capacity-3 buffer the
second write straddles the end of the backing store (write cursor at
physical index 2 of 3, writing 3 bytes), and the trace still matches the
unbounded model byte for byte. -/
theorem wraparound_refines_unbounded_witness :
    wfOps [RBOp.write [1, 2] 2, RBOp.read 2, RBOp.write [3, 4, 5] 3,
           RBOp.read 3] = true ∧
    traceOf (initRB 3) [RBOp.write [1, 2] 2, RBOp.read 2,
        RBOp.write [3, 4, 5] 3, RBOp.read 3]
      = Spec.traceOf ⟨[], 3⟩ [RBOp.write [1, 2] 2, RBOp.read 2,
          RBOp.write [3, 4, 5] 3, RBOp.read 3] :=
  ⟨by decide,
   wraparound_refines_unbounded 3 [RBOp.write [1, 2] 2, RBOp.read 2,
      RBOp.write [3, 4, 5] 3, RBOp.read 3] (by decide)⟩
